import Mathlib

/-
Verification of the column-mapping engine, the mapping cache, the handshake
coordinator and the records dispatcher of app/plugin/grist-plugin-api.ts.

The JavaScript values that flow through mapColumnNames are plain JSON-like
data: records (objects) mapping field names to values.  We embed them as
association lists with unique keys (a JavaScript object cannot hold two
entries for the same key), where an absent key reads as the value undefined.
-/

set_option autoImplicit false

namespace GristPlugin

/-- A JavaScript value as it appears in plugin records: undefined, null,
strings, numbers (integers suffice for the claims), booleans and arrays. -/
inductive Value where
  | undef
  | vnull
  | str (s : String)
  | num (n : Int)
  | boolV (b : Bool)
  | arr (xs : List Value)
deriving Repr

mutual

/-- Boolean equality on values, recursing structurally through arrays. -/
def Value.beqFn : Value → Value → Bool
  | .undef, .undef => true
  | .vnull, .vnull => true
  | .str a, .str b => a == b
  | .num a, .num b => a == b
  | .boolV a, .boolV b => a == b
  | .arr xs, .arr ys => Value.beqList xs ys
  | _, _ => false

/-- Boolean equality on lists of values. -/
def Value.beqList : List Value → List Value → Bool
  | [], [] => true
  | x :: xs, y :: ys => Value.beqFn x y && Value.beqList xs ys
  | _, _ => false

end

instance : BEq Value := ⟨Value.beqFn⟩

mutual

theorem Value.beqFn_refl : ∀ v : Value, Value.beqFn v v = true
  | .undef => rfl
  | .vnull => rfl
  | .str a => by simp [Value.beqFn]
  | .num a => by simp [Value.beqFn]
  | .boolV a => by simp [Value.beqFn]
  | .arr xs => Value.beqList_refl xs

theorem Value.beqList_refl : ∀ xs : List Value, Value.beqList xs xs = true
  | [] => rfl
  | x :: xs => by
    rw [Value.beqList, Value.beqFn_refl x, Value.beqList_refl xs]
    rfl

end

mutual

theorem Value.eq_of_beqFn : ∀ {v w : Value}, Value.beqFn v w = true → v = w
  | .undef, .undef, _ => rfl
  | .undef, .vnull, h | .undef, .str _, h | .undef, .num _, h
  | .undef, .boolV _, h | .undef, .arr _, h => by cases h
  | .vnull, .vnull, _ => rfl
  | .vnull, .undef, h | .vnull, .str _, h | .vnull, .num _, h
  | .vnull, .boolV _, h | .vnull, .arr _, h => by cases h
  | .str a, .str b, h => by
    have hab : a = b := by simpa [Value.beqFn] using h
    rw [hab]
  | .str _, .undef, h | .str _, .vnull, h | .str _, .num _, h
  | .str _, .boolV _, h | .str _, .arr _, h => by cases h
  | .num a, .num b, h => by
    have hab : a = b := by simpa [Value.beqFn] using h
    rw [hab]
  | .num _, .undef, h | .num _, .vnull, h | .num _, .str _, h
  | .num _, .boolV _, h | .num _, .arr _, h => by cases h
  | .boolV a, .boolV b, h => by
    have hab : a = b := by simpa [Value.beqFn] using h
    rw [hab]
  | .boolV _, .undef, h | .boolV _, .vnull, h | .boolV _, .str _, h
  | .boolV _, .num _, h | .boolV _, .arr _, h => by cases h
  | .arr xs, .arr ys, h => by
    have hxy : xs = ys := Value.eq_of_beqList h
    rw [hxy]
  | .arr _, .undef, h | .arr _, .vnull, h | .arr _, .str _, h
  | .arr _, .num _, h | .arr _, .boolV _, h => by cases h

theorem Value.eq_of_beqList : ∀ {xs ys : List Value}, Value.beqList xs ys = true → xs = ys
  | [], [], _ => rfl
  | [], _ :: _, h => by cases h
  | _ :: _, [], h => by cases h
  | x :: xs, y :: ys, h => by
    have hsplit : Value.beqFn x y = true ∧ Value.beqList xs ys = true := by
      rw [Value.beqList] at h
      exact ⟨Bool.and_elim_left h, Bool.and_elim_right h⟩
    rw [Value.eq_of_beqFn hsplit.1, Value.eq_of_beqList hsplit.2]

end

instance : DecidableEq Value := fun v w =>
  if h : Value.beqFn v w = true then .isTrue (Value.eq_of_beqFn h)
  else .isFalse (fun he => h (he ▸ Value.beqFn_refl v))

/-- A record as mapColumnNames sees it: a JavaScript object, i.e. an ordered
association list with unique keys. -/
abbrev GRec : Type := List (String × Value)

/-- Reading a field of a record: an absent key reads as undefined, mirroring
property access on a JavaScript object. -/
def getF (r : GRec) (k : String) : Value :=
  match r.find? (fun p => p.1 == k) with
  | some p => p.2
  | none => Value.undef

/-- Assigning a field: overwrite the entry in place when the key exists, else
append it, mirroring property assignment on a JavaScript object. -/
def setF : GRec → String → Value → GRec
  | [], k, v => [(k, v)]
  | (k1, v1) :: r, k, v =>
    if k1 = k then (k, v) :: r else (k1, v1) :: setF r k v

/-- What a widget column is mapped to in a WidgetColumnMap entry: a single
grist column name, a list of grist column names (a series), or null. -/
inductive ColTarget where
  | col (s : String)
  | colList (ss : List String)
  | nullT
deriving DecidableEq, Repr

/-- The ColumnMapping supplied by the host (WidgetColumnMap): a JavaScript
object from widget column names to targets, embedded as an association list
with unique keys. -/
abbrev WidgetColumnMap : Type := List (String × ColTarget)

/-- One entry of ColumnsToMap: either a bare name (a required column) or a
described column carrying an optional flag. -/
inductive ColSpec where
  | plain (name : String)
  | described (name : String) (optional : Bool)
deriving DecidableEq, Repr

/-- The isOptional helper inside mapColumnNames: a column is optional when it
does not occur among the plain string entries of columns and some object
entry has that name with a true optional flag. -/
def isOptional (cols : List ColSpec) (c : String) : Bool :=
  (!(cols.any (fun e => match e with
      | ColSpec.plain n => n == c
      | ColSpec.described _ _ => false)))
  && cols.any (fun e => match e with
      | ColSpec.plain _ => false
      | ColSpec.described n opt => n == c && opt)

/-- Looking a widget column up in the mapping object. -/
def lookupT (m : WidgetColumnMap) (k : String) : Option ColTarget :=
  (m.find? (fun p => p.1 == k)).map (fun p => p.2)

/-- A target is falsy for the purposes of mapColumnNames when it fails both
the series test (nonempty array) and the single-column test (truthy
non-array): null, an empty string, or an empty list. -/
def falsyTarget : ColTarget → Bool
  | ColTarget.col s => s == ""
  | ColTarget.colList ss => ss.isEmpty
  | ColTarget.nullT => true

/-- The key list of a JavaScript object built from an association list:
first occurrence of each key, later duplicates dropped. -/
def dedupKeys : List String → List String
  | [] => []
  | k :: ks => k :: (dedupKeys ks).filter (fun x => x ≠ k)

/-- Lexicographic comparison of character lists by code point, as
Array.prototype.sort compares strings (identical on the ASCII column names
involved here). -/
def charListLe : List Char → List Char → Bool
  | [], _ => true
  | _ :: _, [] => false
  | c :: cs, d :: ds =>
    if c.toNat < d.toNat then true
    else if d.toNat < c.toNat then false
    else charListLe cs ds

/-- The string order used by the default sort of the widget column keys. -/
def strLeP (a b : String) : Prop := charListLe a.toList b.toList = true

instance : DecidableRel strLeP := fun a b =>
  inferInstanceAs (Decidable (charListLe a.toList b.toList = true))

/-- Object.keys(mappings).sort(): the keys of the object in ascending order. -/
def sortedKeys (m : WidgetColumnMap) : List String :=
  (dedupKeys (m.map Prod.fst)).insertionSort strLeP

/-- One field-copy operation of the transformation list assembled by
mapColumnNames. -/
inductive Transform where
  | copyId
  | fwdSingle (k : String) (s : String)
  | revSingle (k : String) (s : String)
  | fwdSeries (k : String) (ss : List String)
  | revSeries (k : String) (ss : List String)
deriving DecidableEq, Repr

/-- JavaScript indexing v?.[i] as used by the reverse series transformation:
arrays index positionally, strings yield their i-th character, everything
else (and out-of-range access) yields undefined. -/
def idxVal : Value → Nat → Value
  | Value.arr xs, i => xs.getD i Value.undef
  | Value.str s, i =>
    (match s.toList.get? i with
     | some c => Value.str (String.mk [c])
     | none => Value.undef)
  | _, _ => Value.undef

/-- The writes a transformation performs on the destination record, in
order, given the source record it reads from. -/
def writesOf (src : GRec) : Transform → List (String × Value)
  | Transform.copyId => [("id", getF src "id")]
  | Transform.fwdSingle k s => [(k, getF src s)]
  | Transform.revSingle k s => [(s, getF src k)]
  | Transform.fwdSeries k ss => [(k, Value.arr (ss.map (getF src)))]
  | Transform.revSeries k ss => ss.enum.map (fun p => (p.2, idxVal (getF src k) p.1))

/-- Applying a list of writes to a record, last write to a key winning. -/
def applyWrites (ws : List (String × Value)) (acc : GRec) : GRec :=
  ws.foldl (fun a p => setF a p.1 p.2) acc

/-- Applying a transformation: perform its writes on the destination. -/
def applyT (src : GRec) (t : Transform) (dst : GRec) : GRec :=
  applyWrites (writesOf src t) dst

/-- The loop body of mapColumnNames for one widget column: some (some t)
pushes a transformation, some none skips an optional unmapped column, none
aborts the whole transformation (the required-column failure). -/
def keyTransform (cols : List ColSpec) (reverse : Bool) (m : WidgetColumnMap)
    (k : String) : Option (Option Transform) :=
  match lookupT m k with
  | some (ColTarget.colList ss) =>
    if !ss.isEmpty then
      some (some (if reverse then Transform.revSeries k ss else Transform.fwdSeries k ss))
    else if isOptional cols k then some none else none
  | some (ColTarget.col s) =>
    if s ≠ "" then
      some (some (if reverse then Transform.revSingle k s else Transform.fwdSingle k s))
    else if isOptional cols k then some none else none
  | _ => if isOptional cols k then some none else none

/-- The for-loop of mapColumnNames over the sorted widget columns, building
the transformation list or aborting with none. -/
def buildKeyTransforms (cols : List ColSpec) (m : WidgetColumnMap) (reverse : Bool) :
    List String → Option (List Transform)
  | [] => some []
  | k :: ks =>
    match keyTransform cols reverse m k with
    | none => none
    | some none => buildKeyTransforms cols m reverse ks
    | some (some t) => (buildKeyTransforms cols m reverse ks).map (fun ts => t :: ts)

/-- The full transformation list: the id copy first, then one transformation
per mapped widget column in sorted key order. -/
def buildTransforms (cols : List ColSpec) (m : WidgetColumnMap) (reverse : Bool) :
    Option (List Transform) :=
  (buildKeyTransforms cols m reverse (sortedKeys m)).map (fun ts => Transform.copyId :: ts)

/-- The convert function assembled at the end of mapColumnNames: fold the
transformations over an initially empty record. -/
def convertRec (ts : List Transform) (r : GRec) : GRec :=
  ts.foldl (fun obj t => applyT r t obj) []

/-- The data argument of mapColumnNames: a single record or an array of
records. -/
inductive MapData where
  | one (r : GRec)
  | many (rs : List GRec)
deriving DecidableEq

/-- Array.isArray(data) and data.length equal to zero. -/
def isEmptyArr : MapData → Bool
  | MapData.many [] => true
  | _ => false

/-- mapColumnNames with its options fully resolved: columns is the
ColumnsToMap requested at ready (none when never requested), mappings the
WidgetColumnMap (none when null or never received), reverse the direction
flag.  Returns none exactly where the source returns null. -/
def mapColumnNames (data : MapData) (columns : Option (List ColSpec))
    (mappings : Option WidgetColumnMap) (reverse : Bool) : Option MapData :=
  match columns with
  | none => some data
  | some cols =>
    match mappings with
    | none => none
    | some m =>
      if isEmptyArr data then some data
      else
        match buildTransforms cols m reverse with
        | none => none
        | some ts =>
          some (match data with
                | MapData.one r => MapData.one (convertRec ts r)
                | MapData.many rs => MapData.many (rs.map (convertRec ts)))

/-- mapColumnNamesBack: mapColumnNames with the reverse flag forced on. -/
def mapColumnNamesBack (data : MapData) (columns : Option (List ColSpec))
    (mappings : Option WidgetColumnMap) : Option MapData :=
  mapColumnNames data columns mappings true

/-- The transformation mapColumnNames pushes for a widget column with a
non-falsy target, as a function of the direction flag. -/
def mkT (reverse : Bool) (k : String) : ColTarget → Transform
  | ColTarget.col s => if reverse then Transform.revSingle k s else Transform.fwdSingle k s
  | ColTarget.colList ss => if reverse then Transform.revSeries k ss else Transform.fwdSeries k ss
  | ColTarget.nullT => Transform.copyId

/-- The grist columns a target draws from (forward) or writes to (reverse). -/
def targetCols : ColTarget → List String
  | ColTarget.col s => [s]
  | ColTarget.colList ss => ss
  | ColTarget.nullT => []

/-- The value the forward direction stores under the widget column name. -/
def fwdValue (r : GRec) : ColTarget → Value
  | ColTarget.col s => getF r s
  | ColTarget.colList ss => Value.arr (ss.map (getF r))
  | ColTarget.nullT => Value.undef

/-- Does the ColumnMapping itself write the id field: in the forward
direction a widget column literally named id, in the reverse direction a
mapped grist column named id. -/
def remapsId (reverse : Bool) (m : WidgetColumnMap) : Bool :=
  if reverse then m.any (fun p => (targetCols p.2).contains "id")
  else m.any (fun p => p.1 == "id")

/-! ### The mapping cache (getMappingsIfChanged), lines 196-212

The routine runs on a single-threaded event loop and suspends only at the
await of the in-flight request, so each entry into getMappingsIfChanged up
to that await is one atomic step, and the resolution of the remote
mappings() call (its then and finally handlers plus the release of every
awaiting caller, who each re-read the shared cache) is another.  We embed
the module state and those two atomic steps. -/

/-- The module-level cache state: the serialized mappings cache (outer none
is the undefined sentinel, never fetched; inner none is a null mapping), the
in-flight request marker, the number of remote mappings() calls issued so
far, and the callers currently awaiting the in-flight request. -/
structure CacheState where
  cache : Option (Option WidgetColumnMap)
  activeReq : Bool
  fetchCount : Nat
  waiters : List Nat
deriving DecidableEq

/-- What a caller returns when it reads the cache: a deep copy of the cached
mapping, or null when nothing non-null is cached.  JSON round-tripping the
plain serialized data returns equal data, so the copy is the value itself. -/
def cacheResult (c : Option (Option WidgetColumnMap)) : Option WidgetColumnMap :=
  match c with
  | some (some m) => some m
  | _ => none

/-- One caller entering getMappingsIfChanged with the mappingsChange flag of
its message: if a refresh is needed and none is in flight, issue the remote
call and await it; if one is in flight, await that one; otherwise return the
cached value at once (the second component, none meaning the caller
suspended as a waiter). -/
def callStep (s : CacheState) (caller : Nat) (mappingsChange : Bool) :
    CacheState × Option (Option WidgetColumnMap) :=
  if mappingsChange || s.cache.isNone then
    if s.activeReq then
      ({ s with waiters := s.waiters ++ [caller] }, none)
    else
      ({ s with activeReq := true, fetchCount := s.fetchCount + 1,
                waiters := s.waiters ++ [caller] }, none)
  else (s, some (cacheResult s.cache))

/-- Folding a burst of callers arriving before the in-flight request
resolves. -/
def runCalls (s : CacheState) (calls : List (Nat × Bool)) : CacheState :=
  calls.foldl (fun st c => (callStep st c.1 c.2).1) s

/-- The in-flight request completing: on success the then handler stores the
mappings, on failure it is skipped; the finally handler clears the marker
either way; every waiter resumes and re-reads the cache, yielding the
observation list (success case — on failure each await rethrows instead). -/
def completeStep (s : CacheState) (success : Bool) (v : Option WidgetColumnMap) :
    CacheState × List (Nat × Option WidgetColumnMap) :=
  let cache1 := if success then some v else s.cache
  ({ cache := cache1, activeReq := false, fetchCount := s.fetchCount, waiters := [] },
   if success then s.waiters.map (fun c => (c, cacheResult cache1)) else [])

/-! ### The handshake (ready and getSelectedTableId), lines 165-177, 411-438

ready attaches the message listener that watches for a tableId; the
initialization promise is resolved on the first message carrying a truthy
tableId, and getSelectedTableId awaits that promise and then reads the
current binding.  We embed the listener as a step function over the module
state, counting the invocations of the stored promise resolver. -/

/-- The handshake module state: whether ready ran, the bound table id (none
is the undefined sentinel), whether the initialization promise is resolved,
and how many times the resolver was invoked. -/
structure ReadyState where
  readyCalled : Bool
  tableId : Option String
  initialized : Bool
  initCount : Nat
deriving DecidableEq

/-- Truthiness of msg.tableId: present and non-empty. -/
def truthyId (o : Option String) : Bool :=
  match o with
  | some t => !(t == "")
  | none => false

/-- Falsiness of the stored binding, as the listener tests it. -/
def falsyBinding (o : Option String) : Bool :=
  match o with
  | some t => t == ""
  | none => true

/-- The listener ready attaches: on a message whose tableId is truthy and
differs from the stored binding, invoke the stored resolver if the binding
is still falsy (resolving the initialization promise), then store the new
binding. -/
def onMsgStep (s : ReadyState) (m : Option String) : ReadyState :=
  if truthyId m && !(m == s.tableId) then
    if falsyBinding s.tableId then
      { s with tableId := m, initialized := true, initCount := s.initCount + 1 }
    else
      { s with tableId := m }
  else s

/-- The state right after ready() was first called: listener attached,
nothing bound, promise pending. -/
def readyState0 : ReadyState :=
  { readyCalled := true, tableId := none, initialized := false, initCount := 0 }

/-- Processing a sequence of inbound messages after ready. -/
def runMsgs (s : ReadyState) (msgs : List (Option String)) : ReadyState :=
  msgs.foldl onMsgStep s

/-- The binding carried by the last message with a truthy tableId. -/
def lastTruthy (msgs : List (Option String)) : Option String :=
  match msgs.reverse.find? truthyId with
  | some m => m
  | none => none

/-- What getSelectedTableId resolves to once the initialization promise is
resolved: the currently stored binding. -/
def getSelectedTableIdResult (s : ReadyState) : Option String :=
  if s.initialized then s.tableId else none

/-! ### The records dispatcher (onRecords), lines 335-350

On a message with a truthy tableId and a dataChange flag, the handler
fetches the selected table in columnar form, returns early when the table
has no id column, and otherwise rebuilds the row records in index order
before invoking the callback with the rows and the refreshed mappings. -/

/-- The columnar table returned by fetchSelectedTable: a JavaScript object
from column name to the list of values of that column, in index order. -/
abbrev ColTable : Type := List (String × List Value)

/-- Reading a column of the table object. -/
def lookupCol (data : ColTable) (k : String) : Option (List Value) :=
  (data.find? (fun p => p.1 == k)).map (fun p => p.2)

/-- The row-rebuilding loop of onRecords: for each index of the id column,
start the row with its id and then copy the value of every column at that index,
in the declared column order.  none mirrors the early return on a missing id
column, in which case the callback is never invoked and no mapping refresh
happens. -/
def tableToRows (data : ColTable) : Option (List GRec) :=
  match lookupCol data "id" with
  | none => none
  | some ids =>
    some ((List.range ids.length).map (fun i =>
      data.foldl (fun row p => setF row p.1 (p.2.getD i Value.undef))
        (setF [] "id" (ids.getD i Value.undef))))

/-- The onRecords message handler up to the callback: none when the message
is not a bulk data-change message or the fetched table has no id column
(callback not invoked, no mapping refresh); some rows when the callback
fires with those rows. -/
def onRecordsDispatch (tableId : Option String) (dataChange : Bool)
    (data : ColTable) : Option (List GRec) :=
  if !(truthyId tableId) || !dataChange then none
  else tableToRows data

/-! ### The string order is a total preorder with antisymmetry -/

theorem charListLe_total : ∀ a b : List Char, charListLe a b = true ∨ charListLe b a = true
  | [], [] => Or.inl rfl
  | [], _ :: _ => Or.inl rfl
  | _ :: _, [] => Or.inr rfl
  | c :: cs, d :: ds => by
    rcases Nat.lt_trichotomy c.toNat d.toNat with h | h | h
    · left; simp [charListLe, h]
    · have h1 : ¬ c.toNat < d.toNat := by omega
      have h2 : ¬ d.toNat < c.toNat := by omega
      rcases charListLe_total cs ds with ih | ih
      · left; simp [charListLe, h1, h2, ih]
      · right; simp [charListLe, h1, h2, ih]
    · right; simp [charListLe, h]

theorem charListLe_trans : ∀ a b c : List Char,
    charListLe a b = true → charListLe b c = true → charListLe a c = true
  | [], _, _, _, _ => rfl
  | _ :: _, [], _, hab, _ => by cases hab
  | _ :: _, _ :: _, [], _, hbc => by cases hbc
  | x :: xs, y :: ys, z :: zs, hab, hbc => by
    by_cases hxy : x.toNat < y.toNat <;> by_cases hyz : y.toNat < z.toNat
    · have hxz : x.toNat < z.toNat := by omega
      simp [charListLe, hxz]
    · have hzy : ¬ z.toNat < y.toNat := by
        intro hzy
        simp [charListLe, hyz, hzy] at hbc
      have hxz : x.toNat < z.toNat := by omega
      simp [charListLe, hxz]
    · have hyx : ¬ y.toNat < x.toNat := by
        intro hyx
        simp [charListLe, hxy, hyx] at hab
      have hxz : x.toNat < z.toNat := by omega
      simp [charListLe, hxz]
    · have hyx : ¬ y.toNat < x.toNat := by
        intro hyx
        simp [charListLe, hxy, hyx] at hab
      have hzy : ¬ z.toNat < y.toNat := by
        intro hzy
        simp [charListLe, hyz, hzy] at hbc
      have hxz1 : ¬ x.toNat < z.toNat := by omega
      have hxz2 : ¬ z.toNat < x.toNat := by omega
      simp [charListLe, hxy, hyx] at hab
      simp [charListLe, hyz, hzy] at hbc
      simp [charListLe, hxz1, hxz2]
      exact charListLe_trans xs ys zs hab hbc

theorem char_eq_of_toNat_eq {a b : Char} (h : a.toNat = b.toNat) : a = b := by
  have hv : a.val = b.val := by
    apply UInt32.eq_of_val_eq
    exact Fin.ext h
  exact Char.eq_of_val_eq hv

theorem charListLe_antisymm : ∀ a b : List Char,
    charListLe a b = true → charListLe b a = true → a = b
  | [], [], _, _ => rfl
  | [], _ :: _, _, hba => by cases hba
  | _ :: _, [], hab, _ => by cases hab
  | x :: xs, y :: ys, hab, hba => by
    rcases Nat.lt_trichotomy x.toNat y.toNat with h | h | h
    · have h1 : ¬ y.toNat < x.toNat := by omega
      simp [charListLe, h, h1] at hba
    · have h1 : ¬ x.toNat < y.toNat := by omega
      have h2 : ¬ y.toNat < x.toNat := by omega
      simp [charListLe, h1, h2] at hab hba
      rw [char_eq_of_toNat_eq h, charListLe_antisymm xs ys hab hba]
    · have h1 : ¬ x.toNat < y.toNat := by omega
      simp [charListLe, h, h1] at hab

theorem string_eq_of_toList_eq {s t : String} (h : s.toList = t.toList) : s = t := by
  cases s; cases t
  simp only [String.toList] at h
  rw [h]

instance : IsTotal String strLeP :=
  ⟨fun a b => charListLe_total a.toList b.toList⟩

instance : IsTrans String strLeP :=
  ⟨fun a b c => charListLe_trans a.toList b.toList c.toList⟩

instance : IsAntisymm String strLeP :=
  ⟨fun _ _ hab hba => string_eq_of_toList_eq (charListLe_antisymm _ _ hab hba)⟩

/-! ### Record field lemmas -/

theorem getF_setF_same : ∀ (r : GRec) (k : String) (v : Value), getF (setF r k v) k = v
  | [], k, v => by simp [setF, getF, List.find?]
  | (k1, v1) :: r, k, v => by
    by_cases h : k1 = k
    · simp [setF, h, getF, List.find?]
    · have hne : (k1 == k) = false := by simp [h]
      simp only [setF, if_neg h, getF, List.find?, hne]
      exact getF_setF_same r k v

theorem getF_setF_ne : ∀ (r : GRec) (k k1 : String) (v : Value), k1 ≠ k →
    getF (setF r k v) k1 = getF r k1
  | [], k, k1, v, h => by
    have hne : (k == k1) = false := by simp; exact fun he => h he.symm
    simp [setF, getF, List.find?, hne]
  | (k2, v2) :: r, k, k1, v, h => by
    by_cases h2 : k2 = k
    · have hne : (k == k1) = false := by simp; exact fun he => h he.symm
      have hne2 : (k2 == k1) = false := by simp; rw [h2]; exact fun he => h he.symm
      simp [setF, h2, getF, List.find?, hne, hne2]
    · simp only [setF, if_neg h2]
      by_cases h3 : k2 = k1
      · simp [getF, List.find?, h3]
      · have hne3 : (k2 == k1) = false := by simp [h3]
        simp only [getF, List.find?, hne3]
        exact getF_setF_ne r k k1 v h

theorem mem_keys_setF : ∀ (r : GRec) (k k1 : String) (v : Value),
    k1 ∈ (setF r k v).map Prod.fst → k1 = k ∨ k1 ∈ r.map Prod.fst
  | [], k, k1, v, h => by
    simp [setF] at h
    exact Or.inl h
  | (k2, v2) :: r, k, k1, v, h => by
    by_cases h2 : k2 = k
    · simp [setF, h2] at h
      rcases h with h | h
      · exact Or.inl h
      · exact Or.inr (by simp [h])
    · simp only [setF, if_neg h2, List.map, List.mem_cons] at h
      rcases h with h | h
      · exact Or.inr (by simp [h])
      · rcases mem_keys_setF r k k1 v h with h3 | h3
        · exact Or.inl h3
        · exact Or.inr (List.mem_cons_of_mem _ h3)

/-! ### Write list lemmas -/

theorem applyWrites_append (w1 w2 : List (String × Value)) (acc : GRec) :
    applyWrites (w1 ++ w2) acc = applyWrites w2 (applyWrites w1 acc) := by
  simp [applyWrites, List.foldl_append]

/-- The value of a field after a list of writes: the last write to that key
wins, and a never-written key keeps its prior value. -/
theorem getF_applyWrites : ∀ (ws : List (String × Value)) (acc : GRec) (c : String),
    getF (applyWrites ws acc) c =
      (match ws.reverse.find? (fun p => p.1 == c) with
       | some p => p.2
       | none => getF acc c)
  | [], acc, c => by simp [applyWrites, List.find?]
  | w :: ws, acc, c => by
    have step : applyWrites (w :: ws) acc = applyWrites ws (setF acc w.1 w.2) := by
      simp [applyWrites]
    rw [step, getF_applyWrites ws (setF acc w.1 w.2) c]
    have hrev : (w :: ws).reverse = ws.reverse ++ [w] := by simp
    rw [hrev, List.find?_append]
    cases hfind : ws.reverse.find? (fun p => p.1 == c) with
    | some p => simp [Option.or]
    | none =>
      simp only [Option.or]
      by_cases hc : w.1 = c
      · have : (w.1 == c) = true := by simp [hc]
        simp [List.find?, this]
        rw [← hc]
        exact getF_setF_same acc w.1 w.2
      · have : (w.1 == c) = false := by simp [hc]
        simp [List.find?, this]
        exact getF_setF_ne acc w.1 c w.2 (fun he => hc he.symm)

theorem mem_keys_applyWrites : ∀ (ws : List (String × Value)) (acc : GRec) (k : String),
    k ∈ (applyWrites ws acc).map Prod.fst →
    k ∈ acc.map Prod.fst ∨ k ∈ ws.map Prod.fst
  | [], acc, k, h => Or.inl h
  | w :: ws, acc, k, h => by
    have step : applyWrites (w :: ws) acc = applyWrites ws (setF acc w.1 w.2) := by
      simp [applyWrites]
    rw [step] at h
    rcases mem_keys_applyWrites ws (setF acc w.1 w.2) k h with h1 | h1
    · rcases mem_keys_setF acc w.1 k w.2 h1 with h2 | h2
      · exact Or.inr (by simp [h2])
      · exact Or.inl h2
    · exact Or.inr (List.mem_cons_of_mem _ h1)

/-! ### Key list lemmas -/

theorem mem_dedupKeys : ∀ (l : List String) (k : String), k ∈ dedupKeys l ↔ k ∈ l
  | [], k => Iff.rfl
  | x :: l, k => by
    simp only [dedupKeys, List.mem_cons, List.mem_filter]
    constructor
    · rintro (h | ⟨h1, _⟩)
      · exact Or.inl h
      · exact Or.inr ((mem_dedupKeys l k).mp h1)
    · rintro (h | h)
      · exact Or.inl h
      · by_cases hx : k = x
        · exact Or.inl hx
        · exact Or.inr ⟨(mem_dedupKeys l k).mpr h, by simp [hx]⟩

theorem nodup_dedupKeys : ∀ l : List String, (dedupKeys l).Nodup
  | [] => List.nodup_nil
  | x :: l => by
    simp only [dedupKeys, List.nodup_cons]
    refine ⟨?_, (nodup_dedupKeys l).filter _⟩
    intro hx
    simp [List.mem_filter] at hx

theorem dedupKeys_eq_self : ∀ l : List String, l.Nodup → dedupKeys l = l
  | [], _ => rfl
  | x :: l, h => by
    have hx : x ∉ l := (List.nodup_cons.mp h).1
    have hl : l.Nodup := (List.nodup_cons.mp h).2
    simp only [dedupKeys, dedupKeys_eq_self l hl]
    rw [List.filter_eq_self.mpr]
    intro a ha
    simp
    intro hax
    exact hx (hax ▸ ha)

theorem mem_sortedKeys (m : WidgetColumnMap) (k : String) :
    k ∈ sortedKeys m ↔ k ∈ m.map Prod.fst := by
  unfold sortedKeys
  rw [(List.perm_insertionSort strLeP _).mem_iff]
  exact mem_dedupKeys _ k

theorem nodup_sortedKeys (m : WidgetColumnMap) : (sortedKeys m).Nodup := by
  unfold sortedKeys
  exact (List.perm_insertionSort strLeP _).nodup_iff.mpr (nodup_dedupKeys _)

theorem lookupT_mem {m : WidgetColumnMap} {k : String} {tgt : ColTarget}
    (h : lookupT m k = some tgt) : (k, tgt) ∈ m := by
  unfold lookupT at h
  cases hf : m.find? (fun p => p.1 == k) with
  | none => rw [hf] at h; cases h
  | some p =>
    rw [hf] at h
    have hp : p.1 = k := by
      have := List.find?_some hf
      simpa using this
    have hmem := List.mem_of_find?_eq_some hf
    have hv : p.2 = tgt := by simpa using h
    have hpe : p = (k, tgt) := by
      cases p
      simp only at hp hv
      rw [hp, hv]
    rw [← hpe]
    exact hmem

theorem lookupT_mem_keys {m : WidgetColumnMap} {k : String} {tgt : ColTarget}
    (h : lookupT m k = some tgt) : k ∈ m.map Prod.fst := by
  have := lookupT_mem h
  exact List.mem_map.mpr ⟨(k, tgt), this, rfl⟩

theorem lookupT_isSome_of_mem_keys {m : WidgetColumnMap} {k : String}
    (h : k ∈ m.map Prod.fst) : ∃ tgt, lookupT m k = some tgt := by
  rcases List.mem_map.mp h with ⟨p, hp, hfst⟩
  have hsome : (m.find? (fun q => q.1 == k)).isSome := by
    rw [List.find?_isSome]
    exact ⟨p, hp, by simp [hfst]⟩
  rcases Option.isSome_iff_exists.mp hsome with ⟨q, hq⟩
  exact ⟨q.2, by simp [lookupT, hq]⟩

/-! ### The loop body, characterized -/

theorem keyTransform_of_nonfalsy (cols : List ColSpec) (reverse : Bool)
    (m : WidgetColumnMap) (k : String) (tgt : ColTarget)
    (hl : lookupT m k = some tgt) (hf : falsyTarget tgt = false) :
    keyTransform cols reverse m k = some (some (mkT reverse k tgt)) := by
  unfold keyTransform
  rw [hl]
  cases tgt with
  | col s =>
    have hs : ¬ s = "" := by
      intro he
      rw [he] at hf
      simp [falsyTarget] at hf
    simp [hs, mkT]
  | colList ss =>
    cases ss with
    | nil => simp [falsyTarget] at hf
    | cons a ss => simp [List.isEmpty, mkT]
  | nullT => simp [falsyTarget] at hf

theorem keyTransform_skip (cols : List ColSpec) (reverse : Bool)
    (m : WidgetColumnMap) (k : String)
    (ho : isOptional cols k = true)
    (hall : ∀ tgt, lookupT m k = some tgt → falsyTarget tgt = true) :
    keyTransform cols reverse m k = some none := by
  unfold keyTransform
  cases hl : lookupT m k with
  | none => simp [ho]
  | some tgt =>
    have hf := hall tgt hl
    cases tgt with
    | col s =>
      have hs : s = "" := by simpa [falsyTarget] using hf
      simp [hs, ho]
    | colList ss =>
      cases ss with
      | nil => simp [List.isEmpty, ho]
      | cons a ss => simp [falsyTarget, List.isEmpty] at hf
    | nullT => simp [ho]

theorem keyTransform_fail (cols : List ColSpec) (reverse : Bool)
    (m : WidgetColumnMap) (k : String)
    (ho : isOptional cols k = false)
    (hall : ∀ tgt, lookupT m k = some tgt → falsyTarget tgt = true) :
    keyTransform cols reverse m k = none := by
  unfold keyTransform
  cases hl : lookupT m k with
  | none => simp [ho]
  | some tgt =>
    have hf := hall tgt hl
    cases tgt with
    | col s =>
      have hs : s = "" := by simpa [falsyTarget] using hf
      simp [hs, ho]
    | colList ss =>
      cases ss with
      | nil => simp [List.isEmpty, ho]
      | cons a ss => simp [falsyTarget, List.isEmpty] at hf
    | nullT => simp [ho]

/-- The three mutually exclusive outcomes of the loop body for one widget
column, each with the facts that produced it. -/
theorem keyTransform_cases (cols : List ColSpec) (reverse : Bool)
    (m : WidgetColumnMap) (k : String) :
    (∃ tgt, lookupT m k = some tgt ∧ falsyTarget tgt = false ∧
       keyTransform cols reverse m k = some (some (mkT reverse k tgt)))
    ∨ (isOptional cols k = true ∧ keyTransform cols reverse m k = some none ∧
       (∀ tgt, lookupT m k = some tgt → falsyTarget tgt = true))
    ∨ (isOptional cols k = false ∧ keyTransform cols reverse m k = none ∧
       (∀ tgt, lookupT m k = some tgt → falsyTarget tgt = true)) := by
  cases hl : lookupT m k with
  | none =>
    have hall : ∀ tgt, lookupT m k = some tgt → falsyTarget tgt = true := by
      intro tgt h
      rw [hl] at h
      cases h
    cases ho : isOptional cols k with
    | true =>
      refine Or.inr (Or.inl ⟨rfl, keyTransform_skip cols reverse m k ho hall, ?_⟩)
      intro tgt h
      cases h
    | false =>
      refine Or.inr (Or.inr ⟨rfl, keyTransform_fail cols reverse m k ho hall, ?_⟩)
      intro tgt h
      cases h
  | some tgt =>
    cases hf : falsyTarget tgt with
    | false =>
      exact Or.inl ⟨tgt, rfl, hf, keyTransform_of_nonfalsy cols reverse m k tgt hl hf⟩
    | true =>
      have hall : ∀ tgt1, lookupT m k = some tgt1 → falsyTarget tgt1 = true := by
        intro tgt1 h
        rw [hl] at h
        injection h with h1
        rw [← h1]
        exact hf
      have hall2 : ∀ tgt1 : ColTarget, some tgt = some tgt1 → falsyTarget tgt1 = true := by
        intro tgt1 h
        injection h with h1
        rw [← h1]
        exact hf
      cases ho : isOptional cols k with
      | true => exact Or.inr (Or.inl ⟨rfl, keyTransform_skip cols reverse m k ho hall, hall2⟩)
      | false => exact Or.inr (Or.inr ⟨rfl, keyTransform_fail cols reverse m k ho hall, hall2⟩)

/-! ### Building the transformation list -/

theorem buildKeyTransforms_none_of_mem (cols : List ColSpec) (m : WidgetColumnMap)
    (reverse : Bool) :
    ∀ (ks : List String) (k : String), k ∈ ks →
      keyTransform cols reverse m k = none →
      buildKeyTransforms cols m reverse ks = none := by
  intro ks
  induction ks with
  | nil => intro k h; cases h
  | cons x ks ih =>
    intro k hmem hnone
    rcases List.mem_cons.mp hmem with h | h
    · rw [h] at hnone
      simp [buildKeyTransforms, hnone]
    · unfold buildKeyTransforms
      cases hx : keyTransform cols reverse m x with
      | none => rfl
      | some o =>
        cases o with
        | none => exact ih k h hnone
        | some t => rw [ih k h hnone]; rfl

theorem buildKeyTransforms_shape (cols : List ColSpec) (m : WidgetColumnMap)
    (reverse : Bool) :
    ∀ (ks : List String) (ts : List Transform),
      buildKeyTransforms cols m reverse ks = some ts →
      ∀ t ∈ ts, ∃ k ∈ ks, ∃ tgt, lookupT m k = some tgt ∧
        falsyTarget tgt = false ∧ t = mkT reverse k tgt := by
  intro ks
  induction ks with
  | nil =>
    intro ts hb t ht
    simp [buildKeyTransforms] at hb
    rw [hb] at ht
    cases ht
  | cons x ks ih =>
    intro ts hb t ht
    unfold buildKeyTransforms at hb
    cases hx : keyTransform cols reverse m x with
    | none => rw [hx] at hb; exact Option.noConfusion hb
    | some o =>
      rw [hx] at hb
      cases o with
      | none =>
        rcases ih ts hb t ht with ⟨k, hk, tgt, h1, h2, h3⟩
        exact ⟨k, List.mem_cons_of_mem _ hk, tgt, h1, h2, h3⟩
      | some t1 =>
        rcases Option.map_eq_some'.mp hb with ⟨ts1, hrest, hts⟩
        rw [← hts] at ht
        rcases List.mem_cons.mp ht with h | h
        · rcases keyTransform_cases cols reverse m x with
            ⟨tgt, hl, hf, heq⟩ | ⟨_, heq, _⟩ | ⟨_, heq, _⟩
          · rw [hx] at heq
            have ht1 : t1 = mkT reverse x tgt := by
              injection heq with heq1
              injection heq1
            exact ⟨x, List.mem_cons_self x ks, tgt, hl, hf, by rw [h, ht1]⟩
          · rw [hx] at heq
            injection heq with heq1
            exact Option.noConfusion heq1
          · rw [hx] at heq
            exact Option.noConfusion heq
        · rcases ih ts1 hrest t h with ⟨k, hk, tgt, h1, h2, h3⟩
          exact ⟨k, List.mem_cons_of_mem _ hk, tgt, h1, h2, h3⟩

theorem buildKeyTransforms_mem (cols : List ColSpec) (m : WidgetColumnMap)
    (reverse : Bool) :
    ∀ (ks : List String) (ts : List Transform) (k : String) (tgt : ColTarget),
      buildKeyTransforms cols m reverse ks = some ts →
      k ∈ ks → lookupT m k = some tgt → falsyTarget tgt = false →
      mkT reverse k tgt ∈ ts := by
  intro ks
  induction ks with
  | nil => intro ts k tgt _ hk; cases hk
  | cons x ks ih =>
    intro ts k tgt hb hk hl hf
    unfold buildKeyTransforms at hb
    rcases List.mem_cons.mp hk with h | h
    · subst h
      rw [keyTransform_of_nonfalsy cols reverse m k tgt hl hf] at hb
      rcases Option.map_eq_some'.mp hb with ⟨ts1, _, hts⟩
      rw [← hts]
      exact List.mem_cons_self _ _
    · cases hx : keyTransform cols reverse m x with
      | none => rw [hx] at hb; exact Option.noConfusion hb
      | some o =>
        rw [hx] at hb
        cases o with
        | none => exact ih ts k tgt hb h hl hf
        | some t =>
          rcases Option.map_eq_some'.mp hb with ⟨ts1, hrest, hts⟩
          rw [← hts]
          exact List.mem_cons_of_mem _ (ih ts1 k tgt hrest h hl hf)

theorem buildKeyTransforms_isSome_iff (cols : List ColSpec) (m : WidgetColumnMap) :
    ∀ ks : List String,
      (buildKeyTransforms cols m false ks).isSome ↔
      (buildKeyTransforms cols m true ks).isSome := by
  intro ks
  induction ks with
  | nil => simp [buildKeyTransforms]
  | cons x ks ih =>
    unfold buildKeyTransforms
    rcases keyTransform_cases cols false m x with
      ⟨tgt, hl, hf, heqF⟩ | ⟨ho, heqF, hall⟩ | ⟨ho, heqF, hall⟩
    · have heqT := keyTransform_of_nonfalsy cols true m x tgt hl hf
      rw [heqF, heqT]
      cases h1 : buildKeyTransforms cols m false ks with
      | none =>
        cases h2 : buildKeyTransforms cols m true ks with
        | none => simp
        | some ts2 => rw [h1, h2] at ih; simp at ih
      | some ts1 =>
        cases h2 : buildKeyTransforms cols m true ks with
        | none => rw [h1, h2] at ih; simp at ih
        | some ts2 => simp
    · have heqT := keyTransform_skip cols true m x ho hall
      rw [heqF, heqT]
      exact ih
    · have heqT := keyTransform_fail cols true m x ho hall
      rw [heqF, heqT]

/-! ### Folding transformations is applying their writes -/

theorem fold_applyT_eq_applyWrites (r : GRec) :
    ∀ (ts : List Transform) (acc : GRec),
      ts.foldl (fun o t => applyT r t o) acc = applyWrites (ts.flatMap (writesOf r)) acc
  | [], _ => rfl
  | t :: ts, acc => by
    show ts.foldl (fun o t => applyT r t o) (applyT r t acc) = _
    rw [fold_applyT_eq_applyWrites r ts (applyT r t acc), List.flatMap_cons, applyWrites_append]
    rfl

theorem getF_fold_of_not_written (r : GRec) (ts : List Transform) (k0 : String)
    (h : ∀ t ∈ ts, ∀ p ∈ writesOf r t, p.1 ≠ k0) (acc : GRec) :
    getF (ts.foldl (fun o t => applyT r t o) acc) k0 = getF acc k0 := by
  rw [fold_applyT_eq_applyWrites, getF_applyWrites]
  have hn : (ts.flatMap (writesOf r)).reverse.find? (fun p => p.1 == k0) = none := by
    rw [List.find?_eq_none]
    intro p hp
    rw [List.mem_reverse] at hp
    rcases List.mem_flatMap.mp hp with ⟨t, ht, hpt⟩
    simp only [ne_eq, beq_iff_eq]
    exact h t ht p hpt
  rw [hn]

/-- The writes of a forward transformation for a non-falsy target: a single
write of the forward value under the widget column name. -/
theorem writesOf_mkT_false (r : GRec) (k : String) (tgt : ColTarget)
    (hf : falsyTarget tgt = false) :
    writesOf r (mkT false k tgt) = [(k, fwdValue r tgt)] := by
  cases tgt with
  | col s => rfl
  | colList ss => rfl
  | nullT => simp [falsyTarget] at hf

/-- After the forward pass, a widget column with a non-falsy target holds
exactly its forward value, whatever the starting record. -/
theorem getF_fold_fwd (cols : List ColSpec) (m : WidgetColumnMap) (r : GRec) :
    ∀ (ks : List String) (ts : List Transform), ks.Nodup →
      buildKeyTransforms cols m false ks = some ts →
      ∀ k0 ∈ ks, ∀ tgt, lookupT m k0 = some tgt → falsyTarget tgt = false →
      ∀ acc, getF (ts.foldl (fun o t => applyT r t o) acc) k0 = fwdValue r tgt := by
  intro ks
  induction ks with
  | nil => intro ts _ _ k0 hk0; cases hk0
  | cons x ks ih =>
    intro ts hnd hb k0 hk0 tgt hl hf acc
    have hnd1 : ks.Nodup := (List.nodup_cons.mp hnd).2
    have hxnot : x ∉ ks := (List.nodup_cons.mp hnd).1
    unfold buildKeyTransforms at hb
    rcases List.mem_cons.mp hk0 with he | he
    · subst he
      rw [keyTransform_of_nonfalsy cols false m k0 tgt hl hf] at hb
      rcases Option.map_eq_some'.mp hb with ⟨ts1, hrest, hts⟩
      rw [← hts]
      show getF (ts1.foldl (fun o t => applyT r t o) (applyT r (mkT false k0 tgt) acc)) k0 = _
      rw [getF_fold_of_not_written]
      · show getF (applyWrites (writesOf r (mkT false k0 tgt)) acc) k0 = _
        rw [writesOf_mkT_false r k0 tgt hf]
        exact getF_setF_same acc k0 (fwdValue r tgt)
      · intro t ht p hp
        rcases buildKeyTransforms_shape cols m false ks ts1 hrest t ht with
          ⟨k, hk, tgt1, _, hf1, htt⟩
        rw [htt, writesOf_mkT_false r k tgt1 hf1] at hp
        have hpk : p.1 = k := by
          rcases List.mem_singleton.mp hp with he1
          rw [he1]
        rw [hpk]
        intro he2
        exact hxnot (he2 ▸ hk)
    · cases hx : keyTransform cols false m x with
      | none => rw [hx] at hb; exact Option.noConfusion hb
      | some o =>
        rw [hx] at hb
        cases o with
        | none => exact ih ts hnd1 hb k0 he tgt hl hf acc
        | some t1 =>
          rcases Option.map_eq_some'.mp hb with ⟨ts1, hrest, hts⟩
          rw [← hts]
          show getF (ts1.foldl (fun o t => applyT r t o) (applyT r t1 acc)) k0 = _
          exact ih ts1 hnd1 hrest k0 he tgt hl hf (applyT r t1 acc)

/-- The forward output of mapColumnNames at a mapped widget column. -/
theorem forward_getF (cols : List ColSpec) (m : WidgetColumnMap) (r : GRec)
    (ts : List Transform) (hb : buildTransforms cols m false = some ts)
    (k0 : String) (tgt : ColTarget) (hl : lookupT m k0 = some tgt)
    (hf : falsyTarget tgt = false) :
    getF (convertRec ts r) k0 = fwdValue r tgt := by
  unfold buildTransforms at hb
  rcases Option.map_eq_some'.mp hb with ⟨kts, hks, hts⟩
  rw [← hts]
  show getF (kts.foldl (fun o t => applyT r t o) (applyT r Transform.copyId [])) k0 = _
  have hk0 : k0 ∈ sortedKeys m := (mem_sortedKeys m k0).mpr (lookupT_mem_keys hl)
  exact getF_fold_fwd cols m r (sortedKeys m) kts (nodup_sortedKeys m) hks k0 hk0 tgt hl hf _

/-- Every key of a forward output record is either id or a widget column the
mapping sends to a non-falsy target. -/
theorem forward_keys (cols : List ColSpec) (m : WidgetColumnMap) (r : GRec)
    (ts : List Transform) (hb : buildTransforms cols m false = some ts)
    (k : String) (hk : k ∈ (convertRec ts r).map Prod.fst) :
    k = "id" ∨ ∃ tgt, lookupT m k = some tgt ∧ falsyTarget tgt = false := by
  unfold buildTransforms at hb
  rcases Option.map_eq_some'.mp hb with ⟨kts, hks, hts⟩
  rw [← hts] at hk
  unfold convertRec at hk
  rw [fold_applyT_eq_applyWrites] at hk
  rcases mem_keys_applyWrites _ _ _ hk with h | h
  · cases h
  · rcases List.mem_map.mp h with ⟨p, hp, hpk⟩
    rcases List.mem_flatMap.mp hp with ⟨t, ht, hpt⟩
    rcases List.mem_cons.mp ht with he | ht1
    · left
      rw [he] at hpt
      rcases List.mem_singleton.mp hpt with he1
      rw [← hpk, he1]
    · right
      rcases buildKeyTransforms_shape cols m false (sortedKeys m) kts hks t ht1 with
        ⟨kk, _, tgt, hl, hf, htt⟩
      rw [htt, writesOf_mkT_false r kk tgt hf] at hpt
      rcases List.mem_singleton.mp hpt with he1
      have hkkk : k = kk := by rw [← hpk, he1]
      exact ⟨tgt, hkkk ▸ hl, hf⟩

/-! ### The reverse pass restores forward inputs -/

/-- Every write of a reverse transformation applied to the forward output
carries the value the original record holds at the written grist column,
and only the columns of the target are written. -/
theorem rev_write_faithful (cols : List ColSpec) (m : WidgetColumnMap) (r o : GRec)
    (tsF : List Transform) (hbF : buildTransforms cols m false = some tsF)
    (ho : o = convertRec tsF r) (k : String) (tgt : ColTarget)
    (hl : lookupT m k = some tgt) (hf : falsyTarget tgt = false) :
    ∀ p ∈ writesOf o (mkT true k tgt), p.2 = getF r p.1 ∧ p.1 ∈ targetCols tgt := by
  intro p hp
  have hok : getF o k = fwdValue r tgt := by
    rw [ho]
    exact forward_getF cols m r tsF hbF k tgt hl hf
  cases tgt with
  | col s =>
    have hp2 : p ∈ [(s, getF o k)] := hp
    have hps : p = (s, getF o k) := List.mem_singleton.mp hp2
    rw [hps]
    constructor
    · exact hok
    · exact List.mem_singleton.mpr rfl
  | colList ss =>
    have hp2 : p ∈ ss.enum.map (fun q => (q.2, idxVal (getF o k) q.1)) := hp
    rcases List.mem_map.mp hp2 with ⟨q, hq, hqp⟩
    have hget : ss.get? q.1 = some q.2 := List.mem_enum_iff_get?.mp hq
    rw [← hqp]
    constructor
    · show idxVal (getF o k) q.1 = getF r q.2
      rw [hok]
      show ((ss.map (getF r)).get? q.1).getD Value.undef = getF r q.2
      rw [List.get?_map, hget]
      rfl
    · exact List.get?_mem hget
  | nullT => simp [falsyTarget] at hf

/-- Each target column of a mapped widget column is written by the reverse
transformation. -/
theorem rev_write_exists (o : GRec) (k : String) (tgt : ColTarget)
    (hf : falsyTarget tgt = false) (c : String) (hc : c ∈ targetCols tgt) :
    ∃ p ∈ writesOf o (mkT true k tgt), p.1 = c := by
  cases tgt with
  | col s =>
    have hcs : c = s := List.mem_singleton.mp hc
    refine ⟨(s, getF o k), ?_, hcs.symm⟩
    exact List.mem_singleton.mpr rfl
  | colList ss =>
    have hc2 : c ∈ ss := hc
    rcases List.mem_iff_get.mp hc2 with ⟨n, hn⟩
    refine ⟨(c, idxVal (getF o k) n.1), ?_, rfl⟩
    show (c, idxVal (getF o k) n.1) ∈ ss.enum.map (fun q => (q.2, idxVal (getF o k) q.1))
    refine List.mem_map.mpr ⟨(n.1, c), ?_, rfl⟩
    rw [List.mem_enum_iff_get?]
    show ss.get? n.1 = some c
    rw [List.get?_eq_get n.2, hn]
  | nullT => simp [falsyTarget] at hf

/-- Running the reverse transformation list on the forward output restores
the original value of every grist column some widget column was mapped to. -/
theorem reverse_getF (cols : List ColSpec) (m : WidgetColumnMap) (r o : GRec)
    (tsF tsR : List Transform)
    (hbF : buildTransforms cols m false = some tsF)
    (hbR : buildTransforms cols m true = some tsR)
    (ho : o = convertRec tsF r)
    (k0 : String) (tgt : ColTarget) (hl : lookupT m k0 = some tgt)
    (hf : falsyTarget tgt = false) (c : String) (hc : c ∈ targetCols tgt) :
    getF (convertRec tsR o) c = getF r c := by
  unfold buildTransforms at hbR
  rcases Option.map_eq_some'.mp hbR with ⟨kts, hks, hts⟩
  rw [← hts]
  unfold convertRec
  rw [fold_applyT_eq_applyWrites, getF_applyWrites]
  have hW : ∀ p ∈ kts.flatMap (writesOf o), p.2 = getF r p.1 := by
    intro p hp
    rcases List.mem_flatMap.mp hp with ⟨t, ht, hpt⟩
    rcases buildKeyTransforms_shape cols m true (sortedKeys m) kts hks t ht with
      ⟨k1, _, tgt1, hl1, hf1, htt⟩
    rw [htt] at hpt
    exact (rev_write_faithful cols m r o tsF hbF ho k1 tgt1 hl1 hf1 p hpt).1
  have hk0mem : k0 ∈ sortedKeys m := (mem_sortedKeys m k0).mpr (lookupT_mem_keys hl)
  have ht0 : mkT true k0 tgt ∈ kts :=
    buildKeyTransforms_mem cols m true (sortedKeys m) kts k0 tgt hks hk0mem hl hf
  rcases rev_write_exists o k0 tgt hf c hc with ⟨p0, hp0w, hp0c⟩
  have hp0W : p0 ∈ kts.flatMap (writesOf o) := List.mem_flatMap.mpr ⟨_, ht0, hp0w⟩
  have hsome : ((kts.flatMap (writesOf o)).reverse.find? (fun p => p.1 == c)).isSome := by
    rw [List.find?_isSome]
    exact ⟨p0, List.mem_reverse.mpr hp0W, by simp [hp0c]⟩
  rcases Option.isSome_iff_exists.mp hsome with ⟨p1, hp1⟩
  have hp1pred := List.find?_some hp1
  have hp1mem : p1 ∈ kts.flatMap (writesOf o) :=
    List.mem_reverse.mp (List.mem_of_find?_eq_some hp1)
  have hp1c : p1.1 = c := by simpa using hp1pred
  have hval : p1.2 = getF r c := by
    rw [hW p1 hp1mem, hp1c]
  have hfull : ((Transform.copyId :: kts).flatMap (writesOf o)).reverse.find?
      (fun p => p.1 == c) = some p1 := by
    rw [List.flatMap_cons, List.reverse_append, List.find?_append, hp1]
    rfl
  rw [hfull]
  exact hval

/-! ### Remaining helpers for the claims -/

theorem buildKeyTransforms_isSome (cols : List ColSpec) (m : WidgetColumnMap)
    (reverse : Bool) :
    ∀ ks : List String, (∀ k ∈ ks, keyTransform cols reverse m k ≠ none) →
      (buildKeyTransforms cols m reverse ks).isSome := by
  intro ks
  induction ks with
  | nil => intro _; rfl
  | cons x ks ih =>
    intro h
    unfold buildKeyTransforms
    cases hx : keyTransform cols reverse m x with
    | none => exact absurd hx (h x (List.mem_cons_self x ks))
    | some o =>
      have hrest := ih (fun k hk => h k (List.mem_cons_of_mem _ hk))
      cases o with
      | none => exact hrest
      | some t =>
        rcases Option.isSome_iff_exists.mp hrest with ⟨ts1, hts1⟩
        rw [hts1]
        rfl

/-- mapColumnNames on a single record, in normal form. -/
theorem mapColumnNames_one_eq (cols : List ColSpec) (m : WidgetColumnMap)
    (reverse : Bool) (r : GRec) :
    mapColumnNames (MapData.one r) (some cols) (some m) reverse =
      (buildTransforms cols m reverse).map (fun ts => MapData.one (convertRec ts r)) := by
  cases hb : buildTransforms cols m reverse with
  | none => simp [mapColumnNames, isEmptyArr, hb]
  | some ts => simp [mapColumnNames, isEmptyArr, hb]

/-- mapColumnNames on a non-empty sequence of records, in normal form. -/
theorem mapColumnNames_many_eq (cols : List ColSpec) (m : WidgetColumnMap)
    (reverse : Bool) (r0 : GRec) (rs : List GRec) :
    mapColumnNames (MapData.many (r0 :: rs)) (some cols) (some m) reverse =
      (buildTransforms cols m reverse).map
        (fun ts => MapData.many ((r0 :: rs).map (convertRec ts))) := by
  cases hb : buildTransforms cols m reverse with
  | none => simp [mapColumnNames, isEmptyArr, hb]
  | some ts => simp [mapColumnNames, isEmptyArr, hb]

/-- The reverse transformation writes only to the grist columns of its target. -/
theorem rev_write_keys (o : GRec) (k : String) (tgt : ColTarget)
    (hf : falsyTarget tgt = false) :
    ∀ p ∈ writesOf o (mkT true k tgt), p.1 ∈ targetCols tgt := by
  intro p hp
  cases tgt with
  | col s =>
    have hp2 : p ∈ [(s, getF o k)] := hp
    have hps : p = (s, getF o k) := List.mem_singleton.mp hp2
    rw [hps]
    exact List.mem_singleton.mpr rfl
  | colList ss =>
    have hp2 : p ∈ ss.enum.map (fun q => (q.2, idxVal (getF o k) q.1)) := hp
    rcases List.mem_map.mp hp2 with ⟨q, hq, hqp⟩
    have hget : ss.get? q.1 = some q.2 := List.mem_enum_iff_get?.mp hq
    rw [← hqp]
    exact List.get?_mem hget
  | nullT => simp [falsyTarget] at hf

/-- With the id field not remapped, the assembled convert function copies
the id field verbatim. -/
theorem convert_id_preserved (cols : List ColSpec) (m : WidgetColumnMap)
    (reverse : Bool) (ts : List Transform) (r : GRec)
    (hb : buildTransforms cols m reverse = some ts)
    (hrm : remapsId reverse m = false) :
    getF (convertRec ts r) "id" = getF r "id" := by
  unfold buildTransforms at hb
  rcases Option.map_eq_some'.mp hb with ⟨kts, hks, hts⟩
  rw [← hts]
  unfold convertRec
  show getF (kts.foldl (fun o t => applyT r t o) (applyT r Transform.copyId [])) "id" = _
  rw [getF_fold_of_not_written]
  · exact getF_setF_same [] "id" (getF r "id")
  · intro t ht p hp
    rcases buildKeyTransforms_shape cols m reverse (sortedKeys m) kts hks t ht with
      ⟨k, _, tgt, hl, hf, htt⟩
    rw [htt] at hp
    have hmem : (k, tgt) ∈ m := lookupT_mem hl
    cases reverse with
    | false =>
      rw [writesOf_mkT_false r k tgt hf] at hp
      have hpk : p.1 = k := by
        rcases List.mem_singleton.mp hp with he1
        rw [he1]
      rw [hpk]
      intro he2
      have hno : (m.any fun q => q.1 == "id") = false := by
        have h5 := hrm
        rw [remapsId, if_neg (show ¬ (false = true) by decide)] at h5
        exact h5
      have hyes : (m.any fun q => q.1 == "id") = true :=
        List.any_eq_true.mpr ⟨(k, tgt), hmem, by simp [he2]⟩
      rw [hyes] at hno
      cases hno
    | true =>
      have hpc : p.1 ∈ targetCols tgt := rev_write_keys r k tgt hf p hp
      intro he2
      have hno : (m.any fun q => (targetCols q.2).contains "id") = false := by
        have h5 := hrm
        rw [remapsId, if_pos rfl] at h5
        exact h5
      have hyes : (m.any fun q => (targetCols q.2).contains "id") = true := by
        refine List.any_eq_true.mpr ⟨(k, tgt), hmem, ?_⟩
        exact List.elem_eq_true_of_mem (he2 ▸ hpc)
      rw [hyes] at hno
      cases hno

/-- Membership from a successful column lookup in a columnar table. -/
theorem lookupCol_mem {data : ColTable} {k : String} {col : List Value}
    (h : lookupCol data k = some col) : (k, col) ∈ data := by
  unfold lookupCol at h
  cases hf : data.find? (fun p => p.1 == k) with
  | none => rw [hf] at h; cases h
  | some p =>
    rw [hf] at h
    have hp : p.1 = k := by
      have := List.find?_some hf
      simpa using this
    have hmem := List.mem_of_find?_eq_some hf
    have hv : p.2 = col := by simpa using h
    have hpe : p = (k, col) := by
      cases p
      simp only at hp hv
      rw [hp, hv]
    rw [← hpe]
    exact hmem

/-- In a list with distinct keys, find? by key returns the unique entry. -/
theorem find?_eq_of_nodup_mem : ∀ (l : List (String × Value)) (k : String) (v : Value),
    (l.map Prod.fst).Nodup → (k, v) ∈ l → l.find? (fun p => p.1 == k) = some (k, v)
  | [], _, _, _, hmem => absurd hmem (List.not_mem_nil _)
  | p :: l, k, v, hnd, hmem => by
    have hnd1 : (l.map Prod.fst).Nodup := (List.nodup_cons.mp hnd).2
    have hhead : p.1 ∉ l.map Prod.fst := (List.nodup_cons.mp hnd).1
    rcases List.mem_cons.mp hmem with he | he
    · subst he
      simp [List.find?]
    · have hpk : (p.1 == k) = false := by
        rw [beq_eq_false_iff_ne]
        intro hpe
        apply hhead
        rw [hpe]
        exact List.mem_map.mpr ⟨(k, v), he, rfl⟩
      simp only [List.find?, hpk]
      exact find?_eq_of_nodup_mem l k v hnd1 he

/-! ### Claim theorems for the mapping engine -/

/-- C1: round-trip law.  For every MappingSpec, ColumnMapping and input
record on which the forward transformation succeeds, applying
mapColumnNames and then mapColumnNamesBack with the same columns and
mappings restores every grist column a widget name was mapped to as a
single host column, and restores every series position-for-position. -/
theorem C1_roundTrip (cols : List ColSpec) (m : WidgetColumnMap) (r o : GRec)
    (hfwd : mapColumnNames (MapData.one r) (some cols) (some m) false =
      some (MapData.one o)) :
    ∃ o2, mapColumnNamesBack (MapData.one o) (some cols) (some m) =
        some (MapData.one o2) ∧
      ∀ k tgt, lookupT m k = some tgt → falsyTarget tgt = false →
        ((∀ s, tgt = ColTarget.col s → getF o2 s = getF r s) ∧
         (∀ ss, tgt = ColTarget.colList ss →
            ∀ i, ∀ hi : i < ss.length,
              getF o2 (ss.get ⟨i, hi⟩) = getF r (ss.get ⟨i, hi⟩))) := by
  rw [mapColumnNames_one_eq] at hfwd
  rcases Option.map_eq_some'.mp hfwd with ⟨tsF, hbF, hone⟩
  have ho : o = convertRec tsF r := by
    injection hone with h1
    rw [h1]
  have hsomeR : (buildTransforms cols m true).isSome := by
    unfold buildTransforms at hbF ⊢
    rcases Option.map_eq_some'.mp hbF with ⟨kts, hks, _⟩
    have hks2 : (buildKeyTransforms cols m true (sortedKeys m)).isSome :=
      (buildKeyTransforms_isSome_iff cols m (sortedKeys m)).mp (by rw [hks]; rfl)
    rcases Option.isSome_iff_exists.mp hks2 with ⟨ts2, hts2⟩
    rw [hts2]
    rfl
  rcases Option.isSome_iff_exists.mp hsomeR with ⟨tsR, hbR⟩
  refine ⟨convertRec tsR o, ?_, ?_⟩
  · unfold mapColumnNamesBack
    rw [mapColumnNames_one_eq, hbR]
    rfl
  · intro k tgt hl hf
    constructor
    · intro s hs
      subst hs
      exact reverse_getF cols m r o tsF tsR hbF hbR ho k _ hl hf s
        (List.mem_singleton.mpr rfl)
    · intro ss hs i hi
      subst hs
      exact reverse_getF cols m r o tsF tsR hbF hbR ho k _ hl hf
        (ss.get ⟨i, hi⟩) (ss.get_mem i hi)

/-- Witness for C1 at end-to-end scenario C: the series mapping Tags to
C1, C2 maps id 5, C1 x, C2 y forward to id 5, Tags the pair, and the
round trip restores both host columns. -/
theorem C1_roundTrip_witness :
    mapColumnNames
        (MapData.one [("id", Value.num 5), ("C1", Value.str "x"), ("C2", Value.str "y")])
        (some [ColSpec.plain "Tags"])
        (some [("Tags", ColTarget.colList ["C1", "C2"])]) false =
      some (MapData.one
        [("id", Value.num 5), ("Tags", Value.arr [Value.str "x", Value.str "y"])]) ∧
    (∃ o2, mapColumnNamesBack
        (MapData.one [("id", Value.num 5), ("Tags", Value.arr [Value.str "x", Value.str "y"])])
        (some [ColSpec.plain "Tags"])
        (some [("Tags", ColTarget.colList ["C1", "C2"])]) = some (MapData.one o2) ∧
      ∀ k tgt, lookupT [("Tags", ColTarget.colList ["C1", "C2"])] k = some tgt →
        falsyTarget tgt = false →
        ((∀ s, tgt = ColTarget.col s → getF o2 s =
            getF [("id", Value.num 5), ("C1", Value.str "x"), ("C2", Value.str "y")] s) ∧
         (∀ ss, tgt = ColTarget.colList ss →
            ∀ i, ∀ hi : i < ss.length,
              getF o2 (ss.get ⟨i, hi⟩) =
                getF [("id", Value.num 5), ("C1", Value.str "x"), ("C2", Value.str "y")]
                  (ss.get ⟨i, hi⟩)))) :=
  ⟨by decide, C1_roundTrip _ _ _ _ (by decide)⟩

/-- C2 counterexample: with a declared MappingSpec and a null (never
resolved) ColumnMapping, mapColumnNames maps the empty sequence to null,
not to the empty sequence unchanged, because the null-mappings check runs
before the empty-input check. -/
theorem C2_empty_cex :
    mapColumnNames (MapData.many []) (some [ColSpec.plain "Name"]) none false = none ∧
    (none : Option MapData) ≠ some (MapData.many []) :=
  ⟨rfl, by decide⟩

/-- C2 amended: the empty sequence is returned unchanged for every
MappingSpec and every resolved (non-null) ColumnMapping, and also whenever
no MappingSpec was declared; but when a MappingSpec is declared and the
ColumnMapping is null or never resolved, the result is null. -/
theorem C2_empty_sequence (columns : Option (List ColSpec)) (m : WidgetColumnMap)
    (mappings : Option WidgetColumnMap) (reverse : Bool) :
    mapColumnNames (MapData.many []) columns (some m) reverse =
      some (MapData.many []) ∧
    mapColumnNames (MapData.many []) none mappings reverse =
      some (MapData.many []) ∧
    (∀ cols, mapColumnNames (MapData.many []) (some cols) none reverse = none) := by
  refine ⟨?_, rfl, fun cols => rfl⟩
  cases columns with
  | none => rfl
  | some cols => rfl

/-- C3 counterexample: a required widget column whose name is entirely
absent from the ColumnMapping is never checked, so spec scenario B (empty
ColumnMapping with required Name) returns a record, not null. -/
theorem C3_absent_required_cex :
    mapColumnNames (MapData.one [("id", Value.num 1), ("B", Value.str "Ann")])
        (some [ColSpec.plain "Name", ColSpec.described "Email" true]) (some []) false =
      some (MapData.one [("id", Value.num 1)]) ∧
    some (MapData.one [("id", Value.num 1)]) ≠ (none : Option MapData) :=
  ⟨by decide, by decide⟩

/-- C3 amended: whenever some widget column present as a key of the
ColumnMapping is unmapped (null, empty string or empty list) and is not
declared optional, mapColumnNames returns null for any record or non-empty
sequence; a required name entirely absent from the ColumnMapping is not
detected. -/
theorem C3_required_unmapped_null (cols : List ColSpec) (m : WidgetColumnMap)
    (k : String) (tgt : ColTarget) (data : MapData) (reverse : Bool)
    (hl : lookupT m k = some tgt) (hf : falsyTarget tgt = true)
    (ho : isOptional cols k = false) (hne : isEmptyArr data = false) :
    mapColumnNames data (some cols) (some m) reverse = none := by
  have hall : ∀ tgt1, lookupT m k = some tgt1 → falsyTarget tgt1 = true := by
    intro tgt1 h
    rw [hl] at h
    injection h with h1
    rw [← h1]
    exact hf
  have hkt : keyTransform cols reverse m k = none :=
    keyTransform_fail cols reverse m k ho hall
  have hkmem : k ∈ sortedKeys m := (mem_sortedKeys m k).mpr (lookupT_mem_keys hl)
  have hb : buildTransforms cols m reverse = none := by
    unfold buildTransforms
    rw [buildKeyTransforms_none_of_mem cols m reverse (sortedKeys m) k hkmem hkt]
    rfl
  cases data with
  | one r => rw [mapColumnNames_one_eq, hb]; rfl
  | many rs =>
    cases rs with
    | nil => simp [isEmptyArr] at hne
    | cons r0 rs => rw [mapColumnNames_many_eq, hb]; rfl

/-- Witness for C3 amended: required Name present as a key but mapped to
null makes the whole transformation null. -/
theorem C3_required_unmapped_null_witness :
    lookupT [("Name", ColTarget.nullT)] "Name" = some ColTarget.nullT ∧
    falsyTarget ColTarget.nullT = true ∧
    isOptional [ColSpec.plain "Name"] "Name" = false ∧
    isEmptyArr (MapData.one [("id", Value.num 1)]) = false ∧
    mapColumnNames (MapData.one [("id", Value.num 1)]) (some [ColSpec.plain "Name"])
      (some [("Name", ColTarget.nullT)]) false = none :=
  ⟨by decide, by decide, by decide, by decide,
   C3_required_unmapped_null [ColSpec.plain "Name"] [("Name", ColTarget.nullT)]
     "Name" ColTarget.nullT (MapData.one [("id", Value.num 1)]) false
     (by decide) (by decide) (by decide) (by decide)⟩

/-- C4: when every unmapped widget column appearing in the ColumnMapping is
declared optional, mapColumnNames never returns null; a widget column that
is not mapped to a non-falsy target (in particular an unmapped optional
column) is simply omitted from the output; and end-to-end scenario A holds
concretely. -/
theorem C4_optional_unmapped (cols : List ColSpec) (m : WidgetColumnMap)
    (hopt : ∀ p ∈ m, falsyTarget p.2 = true → isOptional cols p.1 = true) :
    (∀ data reverse, mapColumnNames data (some cols) (some m) reverse ≠ none) ∧
    (∀ r o k, mapColumnNames (MapData.one r) (some cols) (some m) false =
        some (MapData.one o) →
      k ≠ "id" → (∀ tgt, lookupT m k = some tgt → falsyTarget tgt = true) →
      k ∉ o.map Prod.fst) ∧
    mapColumnNames (MapData.one [("id", Value.num 1), ("B", Value.str "Ann")])
        (some [ColSpec.plain "Name", ColSpec.described "Email" true])
        (some [("Name", ColTarget.col "B")]) false =
      some (MapData.one [("id", Value.num 1), ("Name", Value.str "Ann")]) := by
  have hbsome : ∀ reverse, (buildTransforms cols m reverse).isSome := by
    intro reverse
    unfold buildTransforms
    have hks : (buildKeyTransforms cols m reverse (sortedKeys m)).isSome := by
      apply buildKeyTransforms_isSome
      intro k hk
      rcases keyTransform_cases cols reverse m k with
        ⟨tgt, _, _, heq⟩ | ⟨_, heq, _⟩ | ⟨ho, _, hall⟩
      · rw [heq]; intro h; cases h
      · rw [heq]; intro h; cases h
      · rcases lookupT_isSome_of_mem_keys ((mem_sortedKeys m k).mp hk) with ⟨tgt, hl⟩
        have hfall := hall tgt hl
        have := hopt (k, tgt) (lookupT_mem hl) hfall
        rw [this] at ho
        cases ho
    rcases Option.isSome_iff_exists.mp hks with ⟨ts1, hts1⟩
    rw [hts1]
    rfl
  refine ⟨?_, ?_, by decide⟩
  · intro data reverse
    rcases Option.isSome_iff_exists.mp (hbsome reverse) with ⟨ts, hb⟩
    cases data with
    | one r => rw [mapColumnNames_one_eq, hb]; intro h; cases h
    | many rs =>
      cases rs with
      | nil => intro h; cases h
      | cons r0 rs => rw [mapColumnNames_many_eq, hb]; intro h; cases h
  · intro r o k hres hkid hfalsy
    rw [mapColumnNames_one_eq] at hres
    rcases Option.map_eq_some'.mp hres with ⟨ts, hb, hone⟩
    have ho2 : o = convertRec ts r := by
      injection hone with h1
      rw [h1]
    intro hk
    rw [ho2] at hk
    rcases forward_keys cols m r ts hb k hk with h | ⟨tgt, hl, hf⟩
    · exact hkid h
    · rw [hfalsy tgt hl] at hf
      cases hf

/-- Witness for C4 at end-to-end scenario A: Email optional and unmapped,
Name mapped to B; the transformation succeeds, Email is omitted. -/
theorem C4_optional_unmapped_witness :
    (∀ p ∈ ([("Name", ColTarget.col "B")] : WidgetColumnMap),
      falsyTarget p.2 = true →
      isOptional [ColSpec.plain "Name", ColSpec.described "Email" true] p.1 = true) ∧
    (∀ data reverse,
      mapColumnNames data (some [ColSpec.plain "Name", ColSpec.described "Email" true])
        (some [("Name", ColTarget.col "B")]) reverse ≠ none) ∧
    "Email" ∉ ([("id", Value.num 1), ("Name", Value.str "Ann")] : GRec).map Prod.fst := by
  have h := C4_optional_unmapped [ColSpec.plain "Name", ColSpec.described "Email" true]
    [("Name", ColTarget.col "B")] (by decide)
  refine ⟨by decide, h.1, ?_⟩
  exact h.2.1 [("id", Value.num 1), ("B", Value.str "Ann")]
    [("id", Value.num 1), ("Name", Value.str "Ann")] "Email" h.2.2
    (by decide) (by decide)

/-- C5 counterexample: a ColumnMapping whose key is the id field itself
overwrites the copied id, so the output id differs from the input id even
though the result is non-null. -/
theorem C5_id_remap_cex :
    mapColumnNames (MapData.one [("id", Value.num 1), ("A", Value.num 2)]) (some [])
        (some [("id", ColTarget.col "A")]) false =
      some (MapData.one [("id", Value.num 2)]) ∧
    getF [("id", Value.num 2)] "id" ≠ getF [("id", Value.num 1), ("A", Value.num 2)] "id" :=
  ⟨by decide, by decide⟩

/-- C5 amended: whenever the ColumnMapping does not itself remap the id
field (forward: no widget column named id; reverse: no mapped grist column
named id), every non-null output of mapColumnNames carries each input
id of each record verbatim, for single records and for sequences index by
index. -/
theorem C5_id_preserved (columns : Option (List ColSpec)) (m : WidgetColumnMap)
    (reverse : Bool) (hrm : remapsId reverse m = false) :
    (∀ r o, mapColumnNames (MapData.one r) columns (some m) reverse =
        some (MapData.one o) → getF o "id" = getF r "id") ∧
    (∀ rs os, mapColumnNames (MapData.many rs) columns (some m) reverse =
        some (MapData.many os) →
      os.length = rs.length ∧
      ∀ i, ∀ hi : i < os.length, ∀ hi2 : i < rs.length,
        getF (os.get ⟨i, hi⟩) "id" = getF (rs.get ⟨i, hi2⟩) "id") := by
  cases columns with
  | none =>
    constructor
    · intro r o hres
      have : MapData.one r = MapData.one o := by
        injection hres with h1
      injection this with h2
      rw [h2]
    · intro rs os hres
      have : MapData.many rs = MapData.many os := by
        injection hres with h1
      injection this with h2
      subst h2
      exact ⟨rfl, fun i hi hi2 => rfl⟩
  | some cols =>
    constructor
    · intro r o hres
      rw [mapColumnNames_one_eq] at hres
      rcases Option.map_eq_some'.mp hres with ⟨ts, hb, hone⟩
      have ho2 : o = convertRec ts r := by
        injection hone with h1
        rw [h1]
      rw [ho2]
      exact convert_id_preserved cols m reverse ts r hb hrm
    · intro rs os hres
      cases rs with
      | nil =>
        have : MapData.many [] = MapData.many os := by
          injection hres with h1
        injection this with h2
        subst h2
        exact ⟨rfl, fun i hi hi2 => rfl⟩
      | cons r0 rs =>
        rw [mapColumnNames_many_eq] at hres
        rcases Option.map_eq_some'.mp hres with ⟨ts, hb, hone⟩
        have ho2 : os = (r0 :: rs).map (convertRec ts) := by
          injection hone with h1
          rw [h1]
        subst ho2
        refine ⟨List.length_map _ _, ?_⟩
        intro i hi hi2
        rw [List.get_map]
        exact convert_id_preserved cols m reverse ts _ hb hrm

/-- Witness for C5 amended: a mapping not touching id preserves the id of a
concrete record. -/
theorem C5_id_preserved_witness :
    remapsId false [("W", ColTarget.col "X")] = false ∧
    mapColumnNames (MapData.one [("id", Value.num 3), ("X", Value.num 4)]) (some [])
        (some [("W", ColTarget.col "X")]) false =
      some (MapData.one [("id", Value.num 3), ("W", Value.num 4)]) ∧
    getF [("id", Value.num 3), ("W", Value.num 4)] "id" =
      getF [("id", Value.num 3), ("X", Value.num 4)] "id" :=
  ⟨by decide, by decide,
   (C5_id_preserved (some []) [("W", ColTarget.col "X")] false (by decide)).1
     [("id", Value.num 3), ("X", Value.num 4)]
     [("id", Value.num 3), ("W", Value.num 4)] (by decide)⟩

/-! ### C6: key-order independence -/

theorem lookupT_perm : ∀ (m1 m2 : WidgetColumnMap), m1.Perm m2 →
    (m1.map Prod.fst).Nodup → ∀ k, lookupT m1 k = lookupT m2 k := by
  intro m1 m2 hperm
  induction hperm with
  | nil => intro _ k; rfl
  | cons p h ih =>
    intro hnd k
    have hnd1 := (List.nodup_cons.mp hnd).2
    unfold lookupT
    cases hp : (p.1 == k) with
    | true => simp [List.find?, hp]
    | false =>
      simp only [List.find?, hp]
      exact ih hnd1 k
  | swap p q l =>
    intro hnd k
    have hqp : ¬ q.1 = p.1 := by
      have := (List.nodup_cons.mp hnd).1
      intro he
      exact this (by simp [he])
    unfold lookupT
    cases hq : (q.1 == k) with
    | true =>
      have hpk : (p.1 == k) = false := by
        rw [beq_eq_false_iff_ne]
        intro he
        exact hqp (by rw [eq_of_beq hq, he])
      simp [List.find?, hq, hpk]
    | false =>
      cases hp : (p.1 == k) with
      | true => simp [List.find?, hq, hp]
      | false => simp [List.find?, hq, hp]
  | trans h12 h23 ih1 ih2 =>
    intro hnd k
    have hnd2 := (h12.map Prod.fst).nodup hnd
    exact (ih1 hnd k).trans (ih2 hnd2 k)

theorem sortedKeys_perm_eq (m1 m2 : WidgetColumnMap) (hperm : m1.Perm m2)
    (hnd : (m1.map Prod.fst).Nodup) : sortedKeys m1 = sortedKeys m2 := by
  unfold sortedKeys
  have hk : (m1.map Prod.fst).Perm (m2.map Prod.fst) := hperm.map _
  have hnd2 : (m2.map Prod.fst).Nodup := hk.nodup hnd
  rw [dedupKeys_eq_self _ hnd, dedupKeys_eq_self _ hnd2]
  exact List.eq_of_perm_of_sorted
    ((List.perm_insertionSort strLeP _).trans
      (hk.trans (List.perm_insertionSort strLeP _).symm))
    (List.sorted_insertionSort strLeP _)
    (List.sorted_insertionSort strLeP _)

theorem buildKeyTransforms_congr (cols : List ColSpec) (m1 m2 : WidgetColumnMap)
    (reverse : Bool) (hperm : m1.Perm m2) (hnd : (m1.map Prod.fst).Nodup) :
    ∀ ks : List String,
      buildKeyTransforms cols m1 reverse ks = buildKeyTransforms cols m2 reverse ks := by
  intro ks
  have hkt : ∀ k, keyTransform cols reverse m1 k = keyTransform cols reverse m2 k := by
    intro k
    unfold keyTransform
    rw [lookupT_perm m1 m2 hperm hnd k]
  induction ks with
  | nil => rfl
  | cons x ks ih =>
    unfold buildKeyTransforms
    rw [hkt x, ih]

/-- C6: mapColumnNames is insensitive to the order in which the host
supplies the ColumnMapping keys: two mappings holding the same
associations in different orders produce identical output for every input,
MappingSpec and direction, because the widget names are processed in
sorted order. -/
theorem C6_order_determinism (m1 m2 : WidgetColumnMap) (hperm : m1.Perm m2)
    (hnd : (m1.map Prod.fst).Nodup) (data : MapData)
    (columns : Option (List ColSpec)) (reverse : Bool) :
    mapColumnNames data columns (some m1) reverse =
      mapColumnNames data columns (some m2) reverse := by
  cases columns with
  | none => rfl
  | some cols =>
    have hbeq : buildTransforms cols m1 reverse = buildTransforms cols m2 reverse := by
      unfold buildTransforms
      rw [sortedKeys_perm_eq m1 m2 hperm hnd,
        buildKeyTransforms_congr cols m1 m2 reverse hperm hnd]
    cases data with
    | one r => rw [mapColumnNames_one_eq, mapColumnNames_one_eq, hbeq]
    | many rs =>
      cases rs with
      | nil => rfl
      | cons r0 rs => rw [mapColumnNames_many_eq, mapColumnNames_many_eq, hbeq]

/-- Witness for C6: the two-key mapping supplied in either order yields the
same output on a concrete record. -/
theorem C6_order_determinism_witness :
    mapColumnNames (MapData.one [("id", Value.num 1), ("X", Value.num 7), ("Y", Value.num 8)])
      (some []) (some [("b", ColTarget.col "X"), ("a", ColTarget.col "Y")]) false =
    mapColumnNames (MapData.one [("id", Value.num 1), ("X", Value.num 7), ("Y", Value.num 8)])
      (some []) (some [("a", ColTarget.col "Y"), ("b", ColTarget.col "X")]) false :=
  C6_order_determinism [("b", ColTarget.col "X"), ("a", ColTarget.col "Y")]
    [("a", ColTarget.col "Y"), ("b", ColTarget.col "X")]
    (List.Perm.swap ("a", ColTarget.col "Y") ("b", ColTarget.col "X") [])
    (by decide)
    (MapData.one [("id", Value.num 1), ("X", Value.num 7), ("Y", Value.num 8)])
    (some []) false

/-! ### C7: single-flight mapping refresh -/

/-- While a request is in flight, further callers that need a refresh only
join the waiter list: no new fetch is issued and no other field changes. -/
theorem runCalls_active : ∀ (calls : List (Nat × Bool)) (s : CacheState),
    s.activeReq = true → (s.cache = none ∨ ∀ c ∈ calls, c.2 = true) →
    runCalls s calls = { s with waiters := s.waiters ++ calls.map Prod.fst } := by
  intro calls
  induction calls with
  | nil =>
    intro s _ _
    show s = _
    cases s
    simp
  | cons c calls ih =>
    intro s hact hneed
    have hcond : (c.2 || s.cache.isNone) = true := by
      rcases hneed with h | h
      · rw [h]
        simp
      · rw [h c (List.mem_cons_self c calls)]
        rfl
    show runCalls (callStep s c.1 c.2).1 calls = _
    have hstep : (callStep s c.1 c.2).1 = { s with waiters := s.waiters ++ [c.1] } := by
      unfold callStep
      rw [if_pos hcond, if_pos hact]
    rw [hstep]
    have hneed2 : ({ s with waiters := s.waiters ++ [c.1] } : CacheState).cache = none ∨
        ∀ c1 ∈ calls, c1.2 = true := by
      rcases hneed with h | h
      · exact Or.inl h
      · exact Or.inr (fun c1 hc1 => h c1 (List.mem_cons_of_mem _ hc1))
    rw [ih { s with waiters := s.waiters ++ [c.1] } hact hneed2]
    cases s
    simp

/-- C7: single-flight refresh.  Starting idle, any non-empty burst of
callers that need a refresh (the cache was never populated, or every
message signals a mappings change) issues exactly one remote mappings()
fetch; all of them become waiters of that one request; when it completes
the in-flight marker is cleared whether it succeeded or failed, and on
success every caller observes the same resolved value. -/
theorem C7_single_flight (s0 : CacheState) (c0 : Nat × Bool) (calls : List (Nat × Bool))
    (v : Option WidgetColumnMap)
    (hidle : s0.activeReq = false) (hw : s0.waiters = [])
    (hneed : s0.cache = none ∨ ∀ c ∈ c0 :: calls, c.2 = true) :
    (runCalls s0 (c0 :: calls)).fetchCount = s0.fetchCount + 1 ∧
    (runCalls s0 (c0 :: calls)).activeReq = true ∧
    (runCalls s0 (c0 :: calls)).waiters = (c0 :: calls).map Prod.fst ∧
    (∀ success, (completeStep (runCalls s0 (c0 :: calls)) success v).1.activeReq = false) ∧
    ((completeStep (runCalls s0 (c0 :: calls)) true v).2 =
      (c0 :: calls).map (fun c => (c.1, cacheResult (some v)))) := by
  have hcond : (c0.2 || s0.cache.isNone) = true := by
    rcases hneed with h | h
    · rw [h]
      simp
    · rw [h c0 (List.mem_cons_self c0 calls)]
      rfl
  have hstep : (callStep s0 c0.1 c0.2).1 =
      { s0 with activeReq := true, fetchCount := s0.fetchCount + 1,
                waiters := s0.waiters ++ [c0.1] } := by
    unfold callStep
    rw [if_pos hcond, if_neg (by rw [hidle]; exact Bool.false_ne_true)]
  have hneed2 : s0.cache = none ∨ ∀ c1 ∈ calls, c1.2 = true := by
    rcases hneed with h | h
    · exact Or.inl h
    · exact Or.inr (fun c1 hc1 => h c1 (List.mem_cons_of_mem _ hc1))
  have hrun : runCalls s0 (c0 :: calls) =
      { s0 with activeReq := true, fetchCount := s0.fetchCount + 1,
                waiters := (s0.waiters ++ [c0.1]) ++ calls.map Prod.fst } := by
    show runCalls (callStep s0 c0.1 c0.2).1 calls = _
    rw [hstep, runCalls_active calls
      { s0 with activeReq := true, fetchCount := s0.fetchCount + 1,
                waiters := s0.waiters ++ [c0.1] } rfl hneed2]
  rw [hrun, hw]
  refine ⟨rfl, rfl, by simp, fun success => rfl, ?_⟩
  show (([] ++ [c0.1]) ++ calls.map Prod.fst).map (fun c => (c, cacheResult (some v))) =
    (c0 :: calls).map (fun c => (c.1, cacheResult (some v)))
  simp

/-- Witness for C7: two concurrent callers, one fetch, both observing the
resolved mapping, marker cleared afterwards. -/
theorem C7_single_flight_witness :
    (runCalls ⟨none, false, 0, []⟩ [(1, true), (2, true)]).fetchCount = 0 + 1 ∧
    (completeStep (runCalls ⟨none, false, 0, []⟩ [(1, true), (2, true)]) true
        (some [("Name", ColTarget.col "B")])).2 =
      [(1, some [("Name", ColTarget.col "B")]), (2, some [("Name", ColTarget.col "B")])] ∧
    (completeStep (runCalls ⟨none, false, 0, []⟩ [(1, true), (2, true)]) false
        none).1.activeReq = false := by
  have h := C7_single_flight ⟨none, false, 0, []⟩ (1, true) [(2, true)]
    (some [("Name", ColTarget.col "B")]) rfl rfl (Or.inl rfl)
  exact ⟨h.1, h.2.2.2.2, h.2.2.2.1 false⟩

/-! ### C8: the initialization signal -/

/-- One listener step: how the resolver count, the resolved flag and the
binding evolve, given the reachable-state invariant. -/
theorem onMsgStep_props (s : ReadyState) (m : Option String)
    (h1 : s.initCount = if s.initialized then 1 else 0)
    (h2 : s.initialized = !(falsyBinding s.tableId))
    (h3 : s.tableId ≠ some "") :
    ((onMsgStep s m).initCount = if (s.initialized || truthyId m) then 1 else 0) ∧
    ((onMsgStep s m).initialized = (s.initialized || truthyId m)) ∧
    ((onMsgStep s m).tableId = if truthyId m then m else s.tableId) ∧
    ((onMsgStep s m).tableId ≠ some "") := by
  cases m with
  | none =>
    refine ⟨?_, ?_, ?_, ?_⟩ <;> simp [onMsgStep, truthyId, h1, h3]
  | some t =>
    by_cases ht : t = ""
    · subst ht
      refine ⟨?_, ?_, ?_, ?_⟩ <;> simp [onMsgStep, truthyId, h1, h3]
    · have htr : truthyId (some t) = true := by simp [truthyId, ht]
      by_cases heq : s.tableId = some t
      · have hfb : falsyBinding s.tableId = false := by
          rw [heq]
          simp [falsyBinding, ht]
        have hin : s.initialized = true := by rw [h2, hfb]; rfl
        have hstep : onMsgStep s (some t) = s := by
          unfold onMsgStep
          rw [if_neg]
          rw [htr, heq]
          simp
        rw [hstep]
        refine ⟨?_, ?_, ?_, h3⟩
        · rw [htr, hin, h1, hin]
          rfl
        · rw [htr, hin]
          rfl
        · rw [htr, if_pos rfl, heq]
      · have hcond : (truthyId (some t) && !((some t : Option String) == s.tableId)) = true := by
          rw [htr]
          have : ((some t : Option String) == s.tableId) = false := by
            rw [beq_eq_false_iff_ne]
            intro he
            exact heq he.symm
          rw [this]
          rfl
        by_cases hfb : falsyBinding s.tableId = true
        · have hin : s.initialized = false := by rw [h2, hfb]; rfl
          have hstep : onMsgStep s (some t) =
              { s with tableId := some t, initialized := true,
                       initCount := s.initCount + 1 } := by
            unfold onMsgStep
            rw [if_pos hcond, if_pos hfb]
          rw [hstep]
          refine ⟨?_, ?_, ?_, by simp [ht]⟩
          · show s.initCount + 1 = _
            rw [h1, hin, htr]
            rfl
          · show true = _
            rw [hin, htr]
            rfl
          · show some t = _
            rw [htr, if_pos rfl]
        · have hfb2 : falsyBinding s.tableId = false := by
            cases hv : falsyBinding s.tableId
            · rfl
            · exact absurd hv hfb
          have hin : s.initialized = true := by rw [h2, hfb2]; rfl
          have hstep : onMsgStep s (some t) = { s with tableId := some t } := by
            unfold onMsgStep
            rw [if_pos hcond, if_neg]
            rw [hfb2]
            intro hc
            cases hc
          rw [hstep]
          refine ⟨?_, ?_, ?_, by simp [ht]⟩
          · show s.initCount = _
            rw [h1, hin, htr]
            rfl
          · show s.initialized = _
            rw [hin, htr]
            rfl
          · show some t = _
            rw [htr, if_pos rfl]

/-- Processing a message sequence from any state satisfying the
reachable-state invariant: the resolver fires exactly once as soon as any
truthy tableId arrives, the resolved flag records whether one arrived, and
the binding tracks the last truthy tableId. -/
theorem runMsgs_props : ∀ (msgs : List (Option String)) (s : ReadyState),
    s.initCount = (if s.initialized then 1 else 0) →
    s.initialized = !(falsyBinding s.tableId) →
    s.tableId ≠ some "" →
    ((runMsgs s msgs).initCount =
      if (s.initialized || msgs.any truthyId) then 1 else 0) ∧
    ((runMsgs s msgs).initialized = (s.initialized || msgs.any truthyId)) ∧
    ((runMsgs s msgs).tableId = (match msgs.reverse.find? truthyId with
      | some mm => mm
      | none => s.tableId)) ∧
    ((runMsgs s msgs).tableId ≠ some "") := by
  intro msgs
  induction msgs with
  | nil =>
    intro s h1 h2 h3
    refine ⟨?_, ?_, rfl, h3⟩
    · simpa using h1
    · show s.initialized = (s.initialized || false)
      rw [Bool.or_false]
  | cons m rest ih =>
    intro s h1 h2 h3
    rcases onMsgStep_props s m h1 h2 h3 with ⟨p1, p2, p3, p4⟩
    have h2s : (onMsgStep s m).initialized = !(falsyBinding (onMsgStep s m).tableId) := by
      cases htm : truthyId m with
      | false =>
        rw [p2, p3, htm]
        simp
        exact h2
      | true =>
        rw [p2, p3, htm]
        simp
        cases m with
        | none => simp [truthyId] at htm
        | some t =>
          have ht : ¬ t = "" := by
            intro he
            rw [he] at htm
            simp [truthyId] at htm
          simp [falsyBinding, ht]
    have h1s : (onMsgStep s m).initCount =
        if (onMsgStep s m).initialized then 1 else 0 := by
      rw [p1, p2]
    rcases ih (onMsgStep s m) h1s h2s p4 with ⟨q1, q2, q3, q4⟩
    have hrun : runMsgs s (m :: rest) = runMsgs (onMsgStep s m) rest := rfl
    refine ⟨?_, ?_, ?_, by rw [hrun]; exact q4⟩
    · rw [hrun, q1, p2]
      rw [List.any_cons, Bool.or_assoc]
    · rw [hrun, q2, p2]
      rw [List.any_cons, Bool.or_assoc]
    · rw [hrun, q3, p3]
      have hrev : (m :: rest).reverse = rest.reverse ++ [m] := by simp
      rw [hrev, List.find?_append]
      cases hfr : rest.reverse.find? truthyId with
      | some mm => rfl
      | none =>
        cases htm : truthyId m with
        | true => simp [List.find?, htm]
        | false => simp [List.find?, htm]

/-- C8: after ready, the initialization signal fires exactly once, on the
first message carrying a truthy tableId; the resolved flag is set exactly
when such a message arrived; the stored binding is the last truthy tableId
seen; and once resolved, getSelectedTableId returns that non-empty bound
identifier.  Later messages with a different tableId only update the
binding: the resolver count stays one. -/
theorem C8_initialization (msgs : List (Option String)) :
    ((runMsgs readyState0 msgs).initCount =
      if msgs.any truthyId then 1 else 0) ∧
    ((runMsgs readyState0 msgs).initialized = msgs.any truthyId) ∧
    ((runMsgs readyState0 msgs).tableId = lastTruthy msgs) ∧
    ((runMsgs readyState0 msgs).initialized = true →
      ∃ t, (runMsgs readyState0 msgs).tableId = some t ∧ t ≠ "" ∧
        getSelectedTableIdResult (runMsgs readyState0 msgs) = some t) := by
  rcases runMsgs_props msgs readyState0 rfl rfl (by intro h; cases h) with ⟨q1, q2, q3, _⟩
  have hfalse : (readyState0.initialized || msgs.any truthyId) = msgs.any truthyId := rfl
  refine ⟨by rw [q1, hfalse], by rw [q2, hfalse], by rw [q3]; rfl, ?_⟩
  intro hinit
  have hany : msgs.any truthyId = true := by
    rw [q2, hfalse] at hinit
    exact hinit
  rcases List.any_eq_true.mp hany with ⟨x, hx, hxt⟩
  have hsome : (msgs.reverse.find? truthyId).isSome :=
    List.find?_isSome.mpr ⟨x, List.mem_reverse.mpr hx, hxt⟩
  rcases Option.isSome_iff_exists.mp hsome with ⟨mm, hmm⟩
  have hmt := List.find?_some hmm
  cases mm with
  | none => simp [truthyId] at hmt
  | some t =>
    have ht2 : t ≠ "" := by
      intro he
      rw [he] at hmt
      simp [truthyId] at hmt
    refine ⟨t, ?_, ht2, ?_⟩
    · rw [q3, hmm]
    · unfold getSelectedTableIdResult
      rw [hinit, if_pos rfl, q3, hmm]

/-- Witness for C8: a run with a blank message, an empty tableId, two
messages binding T1 and a rebind to T2 fires the resolver once and ends
bound to T2. -/
theorem C8_initialization_witness :
    (runMsgs readyState0 [none, some "", some "T1", some "T1", some "T2"]).initCount = 1 ∧
    (runMsgs readyState0 [none, some "", some "T1", some "T1", some "T2"]).tableId =
      some "T2" := by
  have h := C8_initialization [none, some "", some "T1", some "T1", some "T2"]
  constructor
  · rw [h.1]
    decide
  · rw [h.2.2.1]
    decide

/-! ### C9 and C10: the records dispatcher -/

/-- C9: the columnar table is reshaped into row records in index order:
there is one row per index of the id column, and row i holds, for every
column of the table (the id column included), the value of that column at index
i. -/
theorem C9_rows_reshape (data : ColTable) (ids : List Value) (rows : List GRec)
    (hnd : (data.map Prod.fst).Nodup)
    (hid : lookupCol data "id" = some ids)
    (hrows : tableToRows data = some rows) :
    rows.length = ids.length ∧
    ∀ i, ∀ hi : i < rows.length, ∀ k col, lookupCol data k = some col →
      getF (rows.get ⟨i, hi⟩) k = col.getD i Value.undef := by
  unfold tableToRows at hrows
  rw [hid] at hrows
  have hrows2 : rows = (List.range ids.length).map (fun i =>
      data.foldl (fun row p => setF row p.1 (p.2.getD i Value.undef))
        (setF [] "id" (ids.getD i Value.undef))) := by
    injection hrows with h1
    rw [← h1]
  subst hrows2
  constructor
  · rw [List.length_map, List.length_range]
  · intro i hi k col hcol
    have hilt : i < ids.length := by
      rw [List.length_map, List.length_range] at hi
      exact hi
    have hrowi : ((List.range ids.length).map (fun j =>
        data.foldl (fun row p => setF row p.1 (p.2.getD j Value.undef))
          (setF [] "id" (ids.getD j Value.undef)))).get ⟨i, hi⟩ =
        data.foldl (fun row p => setF row p.1 (p.2.getD i Value.undef))
          (setF [] "id" (ids.getD i Value.undef)) := by
      rw [List.get_map, List.get_range]
    rw [hrowi]
    have hfold : data.foldl (fun row p => setF row p.1 (p.2.getD i Value.undef))
        (setF [] "id" (ids.getD i Value.undef)) =
        applyWrites (data.map (fun p => (p.1, p.2.getD i Value.undef)))
          (setF [] "id" (ids.getD i Value.undef)) := by
      unfold applyWrites
      rw [List.foldl_map]
    have hwmem : (k, col.getD i Value.undef) ∈
        data.map (fun p => (p.1, p.2.getD i Value.undef)) :=
      List.mem_map.mpr ⟨(k, col), lookupCol_mem hcol, rfl⟩
    have hwnd : (((data.map (fun p => (p.1, p.2.getD i Value.undef))).reverse).map
        Prod.fst).Nodup := by
      rw [List.map_reverse, List.nodup_reverse, List.map_map]
      exact hnd
    have hfind := find?_eq_of_nodup_mem
      ((data.map (fun p => (p.1, p.2.getD i Value.undef))).reverse)
      k (col.getD i Value.undef) hwnd (List.mem_reverse.mpr hwmem)
    rw [hfold, getF_applyWrites, hfind]

/-- Witness for C9 at end-to-end scenario D: the columnar table with id
1, 2 and Name A, B is reshaped to the two rows in index order. -/
theorem C9_rows_reshape_witness :
    tableToRows [("id", [Value.num 1, Value.num 2]),
                 ("Name", [Value.str "A", Value.str "B"])] =
      some [[("id", Value.num 1), ("Name", Value.str "A")],
            [("id", Value.num 2), ("Name", Value.str "B")]] ∧
    getF [("id", Value.num 1), ("Name", Value.str "A")] "Name" = Value.str "A" ∧
    getF [("id", Value.num 2), ("Name", Value.str "B")] "id" = Value.num 2 := by
  have h := C9_rows_reshape
    [("id", [Value.num 1, Value.num 2]), ("Name", [Value.str "A", Value.str "B"])]
    [Value.num 1, Value.num 2]
    [[("id", Value.num 1), ("Name", Value.str "A")],
     [("id", Value.num 2), ("Name", Value.str "B")]]
    (by decide) (by decide) (by decide)
  refine ⟨by decide, ?_, ?_⟩
  · exact h.2 0 (by decide) "Name" [Value.str "A", Value.str "B"] (by decide)
  · exact h.2 1 (by decide) "id" [Value.num 1, Value.num 2] (by decide)

/-- C10: when the fetched table has no id column, the onRecords handler
returns early: the records callback is never invoked for that message and
no mapping refresh is triggered (the dispatch result is none). -/
theorem C10_missing_id (tid : Option String) (dc : Bool) (data : ColTable)
    (hid : lookupCol data "id" = none) :
    onRecordsDispatch tid dc data = none ∧ tableToRows data = none := by
  have ht : tableToRows data = none := by
    unfold tableToRows
    rw [hid]
  refine ⟨?_, ht⟩
  unfold onRecordsDispatch
  cases hcond : (!(truthyId tid) || !dc) with
  | true => rw [if_pos rfl]
  | false =>
    rw [if_neg (show ¬ (false = true) from fun h => Bool.noConfusion h)]
    exact ht

/-- Witness for C10: a table lacking an id column makes the dispatcher
return early even on a well-formed bulk message. -/
theorem C10_missing_id_witness :
    lookupCol [("Name", [Value.str "A"])] "id" = none ∧
    onRecordsDispatch (some "T1") true [("Name", [Value.str "A"])] = none :=
  ⟨by decide,
   (C10_missing_id (some "T1") true [("Name", [Value.str "A"])] (by decide)).1⟩

end GristPlugin
